import Mathlib

/-!
Verification of the heap allocator core of `jmem-heap.c` (free-list based
bump/coalesce allocator of an embedded JavaScript engine runtime).

The embedding models the static/segmented build of the allocator
(`!JERRY_SYSTEM_ALLOCATOR`, `!JMEM_DYNAMIC_HEAP_EMUL`).  The intrusive free
list that the C code threads through heap memory via compressed
`next_offset` links is represented as a `List Region` in link order: the
sentinel record `first` is implicit (it precedes the head of the list), and
the `JMEM_HEAP_END_OF_LIST` terminator is the end of the list.  Machine
counters are modelled as `Nat` (with truncated subtraction mirroring the
in-range behaviour of the C unsigned arithmetic) and the per-segment
`occupied_size` counters as `Int`, so that the bookkeeping identities the
claims are about can be stated exactly.  Statistics/iteration counters that
the claims let vary freely (`alloc_iter_count`, ...) are omitted.
-/

set_option linter.unusedVariables false

namespace JmemHeap

/-- `JMEM_ALIGNMENT`: the allocation granule of the heap, 8 bytes in the
compressed-pointer configurations served by `jmem-heap.c`. -/
def JMEM_ALIGNMENT : Nat := 8

/-- Modelled from the spec: `JMEM_HEAP_END_OF_LIST`, the sentinel offset that
terminates the free list.  The macro lives in `jmem.h`, which is not among
the sources under verification; the spec describes it as "a dedicated
sentinel distinct from any legal offset, conventionally `heap_size` or
`UINT32_MAX` depending on configuration".  We use the `UINT32_MAX` form,
which is larger than every legal block offset. -/
def JMEM_HEAP_END_OF_LIST : Nat := 4294967295

/-- A free region of the heap: starting offset inside the heap area and total
length in bytes.  The C code keeps `size` and `next_offset` in an in-place
header occupying the first `JMEM_ALIGNMENT` bytes of the region; in this
embedding the order of the surrounding `List Region` models the
`next_offset` chain. -/
structure Region where
  off : Nat
  size : Nat
deriving DecidableEq, Repr

/-- The counters of `jmem_heap_stats_t` that the claims mention. -/
structure HeapStats where
  allocated_bytes : Nat
  waste_bytes : Nat
  alloc_count : Nat
  free_count : Nat
  peak_allocated_bytes : Nat
  peak_waste_bytes : Nat
deriving DecidableEq, Repr

/-- All-zero statistics block (state after `jmem_heap_stat_init`). -/
def emptyStats : HeapStats := ⟨0, 0, 0, 0, 0, 0⟩

/-- Compile-time configuration constants of the allocator. -/
structure HeapCfg where
  /-- `SEG_SEGMENT_SIZE`: byte size of one segment of the logical offset
  space (segmented mode). -/
  segSize : Nat
  /-- `SEG_NUM_SEGMENTS`: number of segments. -/
  segCount : Nat
  /-- `CONFIG_MEM_HEAP_DESIRED_LIMIT`: the soft-trigger step of
  `jmem_heap_limit`. -/
  desiredLimit : Nat
deriving DecidableEq, Repr

/-- The mutable allocator state: the free list (`first` chain), the skip
pointer `jmem_heap_list_skip_p` (`none` models `&first`, `some o` models the
decompressed pointer for offset `o`), the global byte/block counters, the
soft limit, the per-segment `occupied_size` array and the statistics. -/
structure HeapState where
  freeChain : List Region
  skipP : Option Nat
  blocksSize : Nat
  allocatedBlocksCount : Nat
  heapLimit : Nat
  segOccupied : List Int
  stats : HeapStats
deriving DecidableEq, Repr

/-- `(size + JMEM_ALIGNMENT - 1) / JMEM_ALIGNMENT * JMEM_ALIGNMENT`, the
alignment computation used at every site of `jmem-heap.c`. -/
def alignUp (size : Nat) : Nat :=
  (size + JMEM_ALIGNMENT - 1) / JMEM_ALIGNMENT * JMEM_ALIGNMENT

/-- The limit-raising loop of `jmem_heap_alloc_block_internal`:
`while (blocks_size >= heap_limit) heap_limit += CONFIG_MEM_HEAP_DESIRED_LIMIT`.
Written in closed form so the definition computes by kernel reduction; the
theorem `raiseLimit_loop` below proves it satisfies exactly the loop's
recurrence.  (`0 < d` is the configuration constraint under which the C loop
terminates.) -/
def raiseLimit (d blocks limit : Nat) : Nat :=
  if limit ≤ blocks ∧ 0 < d then limit + ((blocks - limit) / d + 1) * d else limit

/-- The limit-lowering loop of `jmem_heap_free_block_internal`:
`while (blocks_size + CONFIG_MEM_HEAP_DESIRED_LIMIT <= heap_limit)
   heap_limit -= CONFIG_MEM_HEAP_DESIRED_LIMIT`.
Closed form; `lowerLimit_loop` below proves the loop recurrence. -/
def lowerLimit (d blocks limit : Nat) : Nat :=
  if blocks + d ≤ limit ∧ 0 < d then limit - (limit - blocks) / d * d else limit

/-- One instance of the per-segment occupancy walk that appears verbatim on
both the slow allocation path and the free path of `jmem-heap.c`
(`JMEM_SEGMENTED_HEAP`).  It chops the end-inclusive offset range
`[fs, be]` (granularity `JMEM_ALIGNMENT`) into per-segment fragments and
returns the list of `(segment index, attributed byte count)` pairs.  The C
loop is `while (size_to_alloc > 0)`; termination is by the `fuel`
parameter, which callers instantiate with the byte count itself (each
iteration consumes at least `JMEM_ALIGNMENT` bytes, so that fuel is always
sufficient, see `segOccupyGo_sum`). -/
def segOccupyGo (seg : Nat) : Nat → Nat → Nat → Nat → List (Nat × Nat)
  | 0, _, _, _ => []
  | fuel + 1, fs, be, left =>
    if 0 < left ∧ 0 < seg then
      let sidx := fs / seg
      let segEnd := (sidx + 1) * seg - JMEM_ALIGNMENT
      let fe := if be < segEnd then be else segEnd
      let inSeg := fe - fs + JMEM_ALIGNMENT
      (sidx, inSeg) :: segOccupyGo seg fuel (fe + JMEM_ALIGNMENT) be (left - inSeg)
    else []

/-- The full occupancy walk for a block of `size` bytes starting at offset
`off`: `block_end_offset = off + size - JMEM_ALIGNMENT` as in the source. -/
def segOccupyList (seg off size : Nat) : List (Nat × Nat) :=
  segOccupyGo seg size off (off + size - JMEM_ALIGNMENT) size

/-- Apply the occupancy deltas `upd` to the per-segment counters, with sign
`sgn` (`1` on the allocation paths, `-1` on the free path). -/
def segApply (segs : List Int) (upd : List (Nat × Nat)) (sgn : Int) : List Int :=
  upd.foldl (fun l q => l.set q.1 (l.getD q.1 0 + sgn * (q.2 : Int))) segs

/-- `jmem_heap_stat_alloc`: account an allocation of `size` bytes (the C
function re-aligns the size it receives). -/
def jmem_heap_stat_alloc (size : Nat) (s : HeapStats) : HeapStats :=
  let aligned_size := alignUp size
  let waste := aligned_size - size
  let s1 := { s with allocated_bytes := s.allocated_bytes + aligned_size,
                     waste_bytes := s.waste_bytes + waste,
                     alloc_count := s.alloc_count + 1 }
  let s2 := if s1.peak_allocated_bytes < s1.allocated_bytes then
      { s1 with peak_allocated_bytes := s1.allocated_bytes } else s1
  if s2.peak_waste_bytes < s2.waste_bytes then
    { s2 with peak_waste_bytes := s2.waste_bytes } else s2

/-- `jmem_heap_stat_free`: account a free of `size` bytes. -/
def jmem_heap_stat_free (size : Nat) (s : HeapStats) : HeapStats :=
  let aligned_size := alignUp size
  let waste := aligned_size - size
  { s with free_count := s.free_count + 1,
           allocated_bytes := s.allocated_bytes - aligned_size,
           waste_bytes := s.waste_bytes - waste }

/-- The list walk of `jmem_heap_alloc_block_internal_slow`: first-fit search
for a region of at least `need` bytes.  Returns the updated chain together
with `some (match offset, predecessor offset)` on success (`none` as
predecessor models `&first`), or `none` when the walk exhausts the list.
On a match the region is split in place when strictly larger than `need`
(residual header at `off + need`), otherwise unlinked. -/
def allocSlowGo (need : Nat) (prevOff : Option Nat) :
    List Region → List Region × Option (Nat × Option Nat)
  | [] => ([], none)
  | r :: rest =>
    if need ≤ r.size then
      if need < r.size then
        (⟨r.off + need, r.size - need⟩ :: rest, some (r.off, prevOff))
      else
        (rest, some (r.off, prevOff))
    else
      let res := allocSlowGo need (some r.off) rest
      (r :: res.1, res.2)

/-- `jmem_heap_alloc_block_internal_slow`: run the first-fit walk and, on
success, update `jmem_heap_blocks_size`, `jmem_heap_allocated_blocks_count`,
the per-segment occupancy (via the walk over the allocated range) and the
skip pointer (`skip_p := prev`). -/
def jmem_heap_alloc_block_internal_slow (cfg : HeapCfg) (need : Nat)
    (st : HeapState) : HeapState × Option Nat :=
  let res := allocSlowGo need none st.freeChain
  match res.2 with
  | some pr =>
    ({ st with
        freeChain := res.1,
        skipP := pr.2,
        blocksSize := st.blocksSize + need,
        allocatedBlocksCount := st.allocatedBlocksCount + 1,
        segOccupied := segApply st.segOccupied (segOccupyList cfg.segSize pr.1 need) 1 },
     some pr.1)
  | none => ({ st with freeChain := res.1 }, none)

/-- `jmem_heap_alloc_block_internal_fast`: the fast path for
`JMEM_ALIGNMENT`-byte blocks.  `r :: rest` is the current free chain (the
caller guarantees it is non-empty).  The first region is taken: unlinked
when its size is exactly `JMEM_ALIGNMENT`, otherwise shrunk in place by
advancing its header `JMEM_ALIGNMENT` bytes.  If the skip pointer referred
to the taken region it is repointed at the new `first.next_offset`
(which is the decompressed `JMEM_HEAP_END_OF_LIST` sentinel when the list
became empty, exactly as in the C code). -/
def jmem_heap_alloc_block_internal_fast (cfg : HeapCfg) (st : HeapState)
    (r : Region) (rest : List Region) : HeapState × Nat :=
  let sidx := r.off / cfg.segSize
  let segs' := st.segOccupied.set sidx
      (st.segOccupied.getD sidx 0 + (JMEM_ALIGNMENT : Int))
  let chain' := if r.size = JMEM_ALIGNMENT then rest
      else ⟨r.off + JMEM_ALIGNMENT, r.size - JMEM_ALIGNMENT⟩ :: rest
  let skip' := if st.skipP = some r.off then
      (match chain' with
       | [] => some JMEM_HEAP_END_OF_LIST
       | r' :: _ => some r'.off)
    else st.skipP
  ({ st with
      freeChain := chain',
      skipP := skip',
      blocksSize := st.blocksSize + JMEM_ALIGNMENT,
      allocatedBlocksCount := st.allocatedBlocksCount + 1,
      segOccupied := segs' },
   r.off)

/-- Path dispatch of `jmem_heap_alloc_block_internal`: the fast path is used
exactly when the aligned size is `JMEM_ALIGNMENT` and
`first.next_offset != JMEM_HEAP_END_OF_LIST` (the chain is non-empty),
otherwise the slow path runs. -/
def jmem_heap_alloc_block_internal_core (cfg : HeapCfg) (size : Nat)
    (st : HeapState) : HeapState × Option Nat :=
  match st.freeChain with
  | r :: rest =>
    if alignUp size = JMEM_ALIGNMENT then
      let fr := jmem_heap_alloc_block_internal_fast cfg st r rest
      (fr.1, some fr.2)
    else jmem_heap_alloc_block_internal_slow cfg (alignUp size) st
  | [] => jmem_heap_alloc_block_internal_slow cfg (alignUp size) st

/-- `jmem_heap_alloc_block_internal`: align the request and dispatch
(`jmem_heap_alloc_block_internal_core`); then run the limit-raising loop
and, on success, `JMEM_HEAP_STAT_ALLOC(size)` with the (already pre-aligned
by the caller) `size` argument. -/
def jmem_heap_alloc_block_internal (cfg : HeapCfg) (size : Nat)
    (st : HeapState) : HeapState × Option Nat :=
  let res := jmem_heap_alloc_block_internal_core cfg size st
  let st2 := { res.1 with
      heapLimit := raiseLimit cfg.desiredLimit res.1.blocksSize res.1.heapLimit }
  match res.2 with
  | none => (st2, none)
  | some p => ({ st2 with stats := jmem_heap_stat_alloc size st2.stats }, some p)

/-- The coalescing insertion of `jmem_heap_free_block_internal`, after the
walk has advanced `prev` to the last region whose offset is below the freed
block.  `prev` is a real list node here (the sentinel-start case is
`freeInsert`).  Merging with the predecessor happens exactly when
`jmem_heap_get_region_end(prev) == block` (`prev.off + prev.size = boff`),
and with the successor exactly when the (merged) block's region end equals
the successor's offset. -/
def freeInsertGo (boff asize : Nat) (prev : Region) :
    List Region → List Region
  | [] =>
    if prev.off + prev.size = boff then [⟨prev.off, prev.size + asize⟩]
    else [prev, ⟨boff, asize⟩]
  | r :: rest =>
    if r.off < boff then prev :: freeInsertGo boff asize r rest
    else
      if prev.off + prev.size = boff then
        if prev.off + (prev.size + asize) = r.off then
          ⟨prev.off, prev.size + asize + r.size⟩ :: rest
        else ⟨prev.off, prev.size + asize⟩ :: r :: rest
      else
        if boff + asize = r.off then prev :: ⟨boff, asize + r.size⟩ :: rest
        else prev :: ⟨boff, asize⟩ :: r :: rest

/-- Coalescing insertion starting from the sentinel `first` (whose region
end never equals a heap pointer, so no predecessor merge can happen at the
sentinel). -/
def freeInsert (boff asize : Nat) : List Region → List Region
  | [] => [⟨boff, asize⟩]
  | r :: rest =>
    if r.off < boff then freeInsertGo boff asize r rest
    else
      if boff + asize = r.off then ⟨boff, asize + r.size⟩ :: rest
      else ⟨boff, asize⟩ :: r :: rest

/-- Split the chain at the node with offset `s` (the node the skip pointer
designates).  Returns `(nodes before it, the node, nodes after it)`. -/
def splitAtOff (s : Nat) : List Region → Option (List Region × Region × List Region)
  | [] => none
  | r :: rest =>
    if r.off = s then some ([], r, rest)
    else
      match splitAtOff s rest with
      | some pr => some (r :: pr.1, pr.2.1, pr.2.2)
      | none => none

/-- The final value of `prev_p` after the free walk (this is what the skip
pointer is set to): the offset of the last examined region below the block
offset, or the starting value `cur`. -/
def lastBelow (boff : Nat) (cur : Option Nat) : List Region → Option Nat
  | [] => cur
  | r :: rest => if r.off < boff then lastBelow boff (some r.off) rest else cur

/-- `jmem_heap_free_block_internal` for a block at offset `boff` of supplied
size `size`.  Mirrors the source: realign the size; choose the walk's start
(`skip_p` when the block offset is above it, else `&first`); walk, splice
with coalescing; set `skip_p := prev`; run the per-segment occupancy walk
subtracting the attributed sizes; decrement the global counters; run the
limit-lowering loop; account the free in the statistics.  (When the skip
pointer is not a list node the C walk would read a non-node header; that
situation is excluded by the skip-pointer invariant, and the model then
falls back to starting at `first`.) -/
def jmem_heap_free_block_internal (cfg : HeapCfg) (boff size : Nat)
    (st : HeapState) : HeapState :=
  let aligned := alignUp size
  let start :=
    match st.skipP with
    | some s => if s < boff then splitAtOff s st.freeChain else none
    | none => none
  let chainSkip :=
    match start with
    | some pr =>
      (pr.1 ++ freeInsertGo boff aligned pr.2.1 pr.2.2,
       lastBelow boff (some pr.2.1.off) pr.2.2)
    | none =>
      (freeInsert boff aligned st.freeChain,
       lastBelow boff none st.freeChain)
  let blocks' := st.blocksSize - aligned
  { st with
      freeChain := chainSkip.1,
      skipP := chainSkip.2,
      blocksSize := blocks',
      allocatedBlocksCount := st.allocatedBlocksCount - 1,
      segOccupied := segApply st.segOccupied (segOccupyList cfg.segSize boff aligned) (-1),
      heapLimit := lowerLimit cfg.desiredLimit blocks' st.heapLimit,
      stats := jmem_heap_stat_free size st.stats }

/-- `jmem_heap_free_block`, the public free entry point. -/
def jmem_heap_free_block (cfg : HeapCfg) (boff size : Nat) (st : HeapState) :
    HeapState :=
  jmem_heap_free_block_internal cfg boff size st

/-- `jmem_free_unused_memory_severity_t`. -/
inductive Severity
  | low
  | high
deriving DecidableEq, Repr

/-- Outcome of `jmem_heap_gc_and_alloc_block`: a block pointer (offset), a
`NULL` return, or termination via `jerry_fatal(ERR_OUT_OF_MEMORY)`. -/
inductive AllocOutcome
  | ptr (p : Nat)
  | null
  | fatal
deriving DecidableEq, Repr

/-- `jmem_heap_gc_and_alloc_block` for the static/segmented core with the GC
callback `cb` (`jmem_run_free_unused_memory_callbacks`) passed explicitly.
Third component of the result: the severities the callback was invoked
with, in order.  Modelling notes: `JMEM_GC_BEFORE_EACH_ALLOC` and
`JMEM_LAZY_GC` are off (the default); the segmented build's
`alloc_a_segment_group` retries live outside the sources under
verification and the spec says segment acquisition yields null when no
segment is available, so those retries are modelled as unavailable. -/
def jmem_heap_gc_and_alloc_block (cfg : HeapCfg)
    (cb : Severity → HeapState → HeapState) (required_size : Nat)
    (ret_null_on_error : Bool) (st : HeapState) :
    HeapState × AllocOutcome × List Severity :=
  if required_size = 0 then (st, .null, [])
  else
    let size := alignUp required_size
    let fired := st.heapLimit < st.blocksSize + size
    let st1 := if fired then cb .low st else st
    let log1 : List Severity := if fired then [.low] else []
    let a1 := jmem_heap_alloc_block_internal cfg size st1
    match a1.2 with
    | some p => (a1.1, .ptr p, log1)
    | none =>
      let st3 := cb .low a1.1
      let a2 := jmem_heap_alloc_block_internal cfg size st3
      match a2.2 with
      | some p => (a2.1, .ptr p, log1 ++ [.low])
      | none =>
        let st5 := cb .high a2.1
        let a3 := jmem_heap_alloc_block_internal cfg size st5
        match a3.2 with
        | some p => (a3.1, .ptr p, log1 ++ [.low, .high])
        | none =>
          (a3.1, if ret_null_on_error then .null else .fatal,
           log1 ++ [.low, .high])

/-- `jmem_heap_alloc_block`: terminate on OOM. -/
def jmem_heap_alloc_block (cfg : HeapCfg) (cb : Severity → HeapState → HeapState)
    (size : Nat) (st : HeapState) : HeapState × AllocOutcome × List Severity :=
  jmem_heap_gc_and_alloc_block cfg cb size false st

/-- `jmem_heap_alloc_block_null_on_error`: return null on OOM. -/
def jmem_heap_alloc_block_null_on_error (cfg : HeapCfg)
    (cb : Severity → HeapState → HeapState) (size : Nat) (st : HeapState) :
    HeapState × AllocOutcome × List Severity :=
  jmem_heap_gc_and_alloc_block cfg cb size true st

/-- `jmem_heap_init` for the static backend: one free region spanning the
whole area, `first` pointing at it, skip pointer at `&first`, limit at
`CONFIG_MEM_HEAP_DESIRED_LIMIT`, zeroed counters and statistics. -/
def jmem_heap_init (cfg : HeapCfg) (areaSize : Nat) : HeapState :=
  { freeChain := [⟨0, areaSize⟩],
    skipP := none,
    blocksSize := 0,
    allocatedBlocksCount := 0,
    heapLimit := cfg.desiredLimit,
    segOccupied := List.replicate cfg.segCount 0,
    stats := emptyStats }

/-- Successor relation of well-formed free lists: `a` lies strictly below
`b` and is not adjacent to it (`jmem_heap_get_region_end(a) ≠ b`). -/
def adjR (a b : Region) : Prop := a.off + a.size < b.off

instance : DecidableRel adjR := fun a b => inferInstanceAs (Decidable (_ < _))

/-- Well-formed free chain: strictly ascending with gaps between
consecutive regions (the no-two-adjacent-free-regions invariant) and no
zero-size region. -/
def wfChain (c : List Region) : Prop :=
  c.Pairwise adjR ∧ ∀ r ∈ c, 0 < r.size

/-- `x` is a byte offset inside region `r`. -/
def inRegion (r : Region) (x : Nat) : Prop := r.off ≤ x ∧ x < r.off + r.size

instance (r : Region) (x : Nat) : Decidable (inRegion r x) :=
  inferInstanceAs (Decidable (_ ∧ _))

/-- `x` is a byte offset covered by some free region of the chain. -/
def coversR (c : List Region) (x : Nat) : Prop := ∃ r ∈ c, inRegion r x

/-- The byte ranges of `a` and `b` are disjoint. -/
def RDisj (a b : Region) : Prop :=
  a.off + a.size ≤ b.off ∨ b.off + b.size ≤ a.off

instance : DecidableRel RDisj := fun a b => inferInstanceAs (Decidable (_ ∨ _))

/-- Skip-pointer invariant as claimed: `jmem_heap_list_skip_p` is either the
sentinel `&first` or a node currently in the free list. -/
def skipInvP (st : HeapState) : Prop :=
  st.skipP = none ∨ ∃ r ∈ st.freeChain, st.skipP = some r.off

/-- The skip-pointer invariant that the code actually maintains: as claimed,
except that when the fast path empties the free list the skip pointer may
also be the decompressed `JMEM_HEAP_END_OF_LIST` sentinel. -/
def skipInvA (st : HeapState) : Prop :=
  skipInvP st ∨ (st.freeChain = [] ∧ st.skipP = some JMEM_HEAP_END_OF_LIST)

/-- Segmented-mode bookkeeping invariant: the per-segment occupied sizes sum
to `jmem_heap_blocks_size`. -/
def SegSumInv (st : HeapState) : Prop :=
  st.segOccupied.sum = (st.blocksSize : Int)

/-- Bounds/alignment side conditions on the free chain used by the
segmented-occupancy invariant: every region is granule-aligned and lies
inside the logical offset space of the `segCount` segments. -/
def chainInBounds (cfg : HeapCfg) (c : List Region) : Prop :=
  ∀ r ∈ c, JMEM_ALIGNMENT ∣ r.off ∧ JMEM_ALIGNMENT ∣ r.size ∧
    r.off + r.size ≤ cfg.segCount * cfg.segSize

/-- Heap-limit invariant maintained by the code: the limit is at least
`blocks_size` and is a multiple (possibly zero) of the desired-limit step. -/
def LimitInv (d : Nat) (st : HeapState) : Prop :=
  st.blocksSize ≤ st.heapLimit ∧ d ∣ st.heapLimit

/-! ### Concrete fixtures for witnesses and counterexamples -/

/-- A small test configuration: one 64 KiB segment, desired-limit step
1024. -/
def cfgT : HeapCfg := ⟨65536, 1, 1024⟩

/-- A registered GC callback that frees nothing at either severity. -/
def cbId : Severity → HeapState → HeapState := fun _ s => s

/-- A freshly initialised heap with a 256-byte area. -/
def tInit : HeapState := jmem_heap_init cfgT 256

/-- Trace state: after a public 8-byte allocation from `tInit`. -/
def tC3a : HeapState := (jmem_heap_alloc_block cfgT cbId 8 tInit).1

/-- Trace state: after a second public 8-byte allocation. -/
def tC3b : HeapState := (jmem_heap_alloc_block cfgT cbId 8 tC3a).1

/-- Trace state: after a third public 8-byte allocation. -/
def tC3c : HeapState := (jmem_heap_alloc_block cfgT cbId 8 tC3b).1

/-- Trace state: after freeing the first block. -/
def tC3d : HeapState := jmem_heap_free_block cfgT 0 8 tC3c

/-- Trace state: after freeing the second block (this free sets the skip
pointer to the node at offset 0). -/
def tC3e : HeapState := jmem_heap_free_block cfgT 16 8 tC3d

/-- Trace state: after a 240-byte allocation that takes the tail region. -/
def tC3f : HeapState := (jmem_heap_alloc_block cfgT cbId 240 tC3e).1

/-- Trace state: after a final 8-byte allocation that empties the free list
via the fast path while the skip pointer referred to the taken node. -/
def tC3g : HeapState := (jmem_heap_alloc_block cfgT cbId 8 tC3f).1

/-- Fixture for the coalescing witness: two free regions around a hole of
two live 16-byte blocks at offsets 16 and 32. -/
def stW1 : HeapState := ⟨[⟨0, 16⟩, ⟨48, 208⟩], none, 32, 2, 1024, [32], emptyStats⟩

/-- Configuration for the GC-escalation counterexample: desired-limit step
16. -/
def cfg6 : HeapCfg := ⟨65536, 1, 16⟩

/-- A fully occupied heap state sitting exactly at its soft limit, with an
empty free list. -/
def stC6 : HeapState :=
  ⟨[], some JMEM_HEAP_END_OF_LIST, 256, 32, 256, [256], emptyStats⟩

/-- A GC callback that frees nothing at `LOW` severity and frees the
8-byte block at offset 0 at `HIGH` severity. -/
def cbC6 : Severity → HeapState → HeapState
  | .low, s => s
  | .high, s => jmem_heap_free_block cfg6 0 8 s

/-- A heap state with an empty free list well under its soft limit. -/
def stW6 : HeapState := ⟨[], some JMEM_HEAP_END_OF_LIST, 8, 1, 1024, [8], emptyStats⟩

/-- A GC callback for the escalation witness: identity at `LOW`, frees the
8-byte block at offset 0 at `HIGH`. -/
def cbW6 : Severity → HeapState → HeapState
  | .low, s => s
  | .high, s => jmem_heap_free_block cfgT 0 8 s

/-- A heap state with one live 16-byte block at offset 0 and a free tail
region. -/
def stC9 : HeapState := ⟨[⟨16, 240⟩], none, 16, 2, 1024, [16], emptyStats⟩

/-! ### Basic arithmetic lemmas -/

theorem alignUp_dvd (s : Nat) : JMEM_ALIGNMENT ∣ alignUp s :=
  Dvd.intro _ (Nat.mul_comm _ _)

theorem alignUp_of_dvd {s : Nat} (h : JMEM_ALIGNMENT ∣ s) : alignUp s = s := by
  rcases h with ⟨m, rfl⟩
  show (JMEM_ALIGNMENT * m + JMEM_ALIGNMENT - 1) / JMEM_ALIGNMENT * JMEM_ALIGNMENT
      = JMEM_ALIGNMENT * m
  show (8 * m + 8 - 1) / 8 * 8 = 8 * m
  have : (8 * m + 7) / 8 = m + 7 / 8 := Nat.mul_add_div (by norm_num) m 7
  omega

theorem le_alignUp (s : Nat) : s ≤ alignUp s := by
  show s ≤ (s + 8 - 1) / 8 * 8
  have h1 := Nat.div_add_mod (s + 7) 8
  have h2 : (s + 7) % 8 < 8 := Nat.mod_lt _ (by norm_num)
  omega

theorem alignUp_pos {s : Nat} (h : 0 < s) : JMEM_ALIGNMENT ≤ alignUp s := by
  have h1 := le_alignUp s
  have h2 := alignUp_dvd s
  show 8 ≤ alignUp s
  have : (8 : Nat) ∣ alignUp s := h2
  omega

theorem alignUp_zero : alignUp 0 = 0 := rfl

theorem alignUp_alignUp (s : Nat) : alignUp (alignUp s) = alignUp s :=
  alignUp_of_dvd (alignUp_dvd s)

/-- `raiseLimit` satisfies the recurrence of the C loop
`while (blocks_size >= heap_limit) heap_limit += d`. -/
theorem raiseLimit_loop (d b l : Nat) :
    raiseLimit d b l = if l ≤ b ∧ 0 < d then raiseLimit d b (l + d) else l := by
  by_cases h : l ≤ b ∧ 0 < d
  · rw [if_pos h]
    by_cases h2 : l + d ≤ b
    · rw [raiseLimit, if_pos h, raiseLimit, if_pos ⟨h2, h.2⟩]
      have hd : b - l = (b - (l + d)) + d := by omega
      rw [hd, Nat.add_div_right _ h.2]
      have e1 : ((b - (l + d)) / d + 1 + 1) * d = ((b - (l + d)) / d + 1) * d + d := by
        ring
      omega
    · rw [raiseLimit, if_pos h, raiseLimit,
        if_neg (by omega : ¬(l + d ≤ b ∧ 0 < d))]
      have hlt : b - l < d := by omega
      rw [Nat.div_eq_of_lt hlt]
      omega
  · rw [raiseLimit, if_neg h, if_neg h]

theorem raiseLimit_gt {d : Nat} (hd : 0 < d) (b l : Nat) :
    b < raiseLimit d b l := by
  rw [raiseLimit]
  by_cases h : l ≤ b ∧ 0 < d
  · rw [if_pos h]
    have h1 := Nat.div_add_mod (b - l) d
    have h2 : (b - l) % d < d := Nat.mod_lt _ hd
    have h3 : ((b - l) / d + 1) * d = d * ((b - l) / d) + d := by ring
    omega
  · rw [if_neg h]
    omega

theorem raiseLimit_dvd {d l : Nat} (h : d ∣ l) (b : Nat) :
    d ∣ raiseLimit d b l := by
  rw [raiseLimit]
  split
  · exact Nat.dvd_add h (Dvd.intro_left _ rfl)
  · exact h

theorem le_raiseLimit (d b l : Nat) : l ≤ raiseLimit d b l := by
  rw [raiseLimit]; split <;> omega

/-- `lowerLimit` satisfies the recurrence of the C loop
`while (blocks_size + d <= heap_limit) heap_limit -= d`. -/
theorem lowerLimit_loop (d b l : Nat) :
    lowerLimit d b l = if b + d ≤ l ∧ 0 < d then lowerLimit d b (l - d) else l := by
  by_cases h : b + d ≤ l ∧ 0 < d
  · rw [if_pos h]
    by_cases h2 : b + d ≤ l - d
    · rw [lowerLimit, if_pos h, lowerLimit, if_pos ⟨h2, h.2⟩]
      have hd : l - b = (l - d - b) + d := by omega
      rw [hd, Nat.add_div_right _ h.2]
      have e1 : ((l - d - b) / d + 1) * d = (l - d - b) / d * d + d := by ring
      have h3 : (l - d - b) / d * d ≤ l - d - b := Nat.div_mul_le_self _ _
      omega
    · rw [lowerLimit, if_pos h, lowerLimit,
        if_neg (by omega : ¬(b + d ≤ l - d ∧ 0 < d))]
      have ha : 1 ≤ (l - b) / d := (Nat.le_div_iff_mul_le h.2).mpr (by omega)
      have hb : (l - b) / d < 2 := (Nat.div_lt_iff_lt_mul h.2).mpr (by omega)
      have h1 : (l - b) / d = 1 := by omega
      rw [h1]
      omega
  · rw [lowerLimit, if_neg h, if_neg h]

theorem lowerLimit_ge {b l : Nat} (h : b ≤ l) (d : Nat) :
    b ≤ lowerLimit d b l := by
  rw [lowerLimit]
  split
  · have h3 : (l - b) / d * d ≤ l - b := Nat.div_mul_le_self _ _
    omega
  · exact h

theorem lowerLimit_le (d b l : Nat) : lowerLimit d b l ≤ l := by
  rw [lowerLimit]; split <;> omega

theorem lowerLimit_dvd {d l : Nat} (h : d ∣ l) (b : Nat) :
    d ∣ lowerLimit d b l := by
  rw [lowerLimit]
  split
  · exact Nat.dvd_sub' h (Dvd.intro_left _ rfl)
  · exact h

/-! ### First-fit walk lemmas -/

/-- A failed first-fit walk rebuilds the chain unchanged. -/
theorem allocSlowGo_fail {need : Nat} :
    ∀ {c : List Region} {po : Option Nat},
      (allocSlowGo need po c).2 = none → (allocSlowGo need po c).1 = c := by
  intro c
  induction c with
  | nil => intro po _; rfl
  | cons r rest ih =>
    intro po h
    rw [allocSlowGo] at h ⊢
    by_cases h1 : need ≤ r.size
    · rw [if_pos h1] at h
      by_cases h2 : need < r.size
      · rw [if_pos h2] at h; exact absurd h (by simp)
      · rw [if_neg h2] at h; exact absurd h (by simp)
    · rw [if_neg h1] at h ⊢
      simp only at h ⊢
      rw [ih h]

/-- On success the predecessor recorded for the skip pointer is either the
walk's initial predecessor or a region still present in the result chain. -/
theorem allocSlowGo_prev {need : Nat} :
    ∀ {c : List Region} {po : Option Nat} {p : Nat} {q : Option Nat},
      (allocSlowGo need po c).2 = some (p, q) →
      q = po ∨ ∃ r ∈ (allocSlowGo need po c).1, q = some r.off := by
  intro c
  induction c with
  | nil => intro po p q h; exact absurd h (by simp [allocSlowGo])
  | cons r rest ih =>
    intro po p q h
    rw [allocSlowGo] at h ⊢
    by_cases h1 : need ≤ r.size
    · rw [if_pos h1] at h ⊢
      by_cases h2 : need < r.size
      · rw [if_pos h2] at h ⊢
        simp only [Option.some_inj, Prod.mk.injEq] at h
        exact Or.inl h.2.symm
      · rw [if_neg h2] at h ⊢
        simp only [Option.some_inj, Prod.mk.injEq] at h
        exact Or.inl h.2.symm
    · rw [if_neg h1] at h ⊢
      simp only at h ⊢
      rcases ih h with h3 | ⟨r', hr', h4⟩
      · rcases h3 with rfl
        exact Or.inr ⟨r, List.mem_cons_self .., rfl⟩
      · exact Or.inr ⟨r', List.mem_cons_of_mem _ hr', h4⟩

/-- A failed slow-path call leaves the state unchanged except that the free
chain is rebuilt (equal to the original by `allocSlowGo_fail`). -/
theorem alloc_slow_fail_frame {cfg : HeapCfg} {need : Nat} {st : HeapState}
    (h : (jmem_heap_alloc_block_internal_slow cfg need st).2 = none) :
    (jmem_heap_alloc_block_internal_slow cfg need st).1 = st := by
  rw [jmem_heap_alloc_block_internal_slow] at h ⊢
  rcases hr : (allocSlowGo need none st.freeChain).2 with _ | pr
  · simp only [hr] at h ⊢
    rw [allocSlowGo_fail hr]
  · simp [hr] at h

/-- A failed core dispatch leaves the state unchanged; failure only arises on
the slow path. -/
theorem alloc_core_fail_frame {cfg : HeapCfg} {size : Nat} {st : HeapState}
    (h : (jmem_heap_alloc_block_internal_core cfg size st).2 = none) :
    (jmem_heap_alloc_block_internal_core cfg size st).1 = st := by
  rw [jmem_heap_alloc_block_internal_core] at h ⊢
  rcases hc : st.freeChain with _ | ⟨r, rest⟩
  · simp only [hc] at h ⊢
    exact alloc_slow_fail_frame h
  · simp only [hc] at h ⊢
    by_cases h8 : alignUp size = JMEM_ALIGNMENT
    · rw [if_pos h8] at h; simp at h
    · rw [if_neg h8] at h ⊢
      exact alloc_slow_fail_frame h

/-- A failed internal allocation returns null and leaves everything except
the heap limit untouched. -/
theorem alloc_internal_fail_frame {cfg : HeapCfg} {size : Nat} {st : HeapState}
    (h : (jmem_heap_alloc_block_internal cfg size st).2 = none) :
    (jmem_heap_alloc_block_internal cfg size st).1 =
      { st with heapLimit := raiseLimit cfg.desiredLimit st.blocksSize st.heapLimit } := by
  rw [jmem_heap_alloc_block_internal] at h ⊢
  rcases hcore : (jmem_heap_alloc_block_internal_core cfg size st).2 with _ | p <;>
    simp only [hcore] at h ⊢
  · rw [alloc_core_fail_frame hcore]
  · simp at h

/-- The result offset, success/failure, and resulting free chain of the core
dispatch depend only on the free chain of the input state. -/
theorem alloc_core_chain_determined {cfg : HeapCfg} {size : Nat}
    {st su : HeapState} (h : st.freeChain = su.freeChain) :
    (jmem_heap_alloc_block_internal_core cfg size st).2 =
      (jmem_heap_alloc_block_internal_core cfg size su).2 ∧
    (jmem_heap_alloc_block_internal_core cfg size st).1.freeChain =
      (jmem_heap_alloc_block_internal_core cfg size su).1.freeChain := by
  rw [jmem_heap_alloc_block_internal_core, jmem_heap_alloc_block_internal_core]
  rcases hc : su.freeChain with _ | ⟨r, rest⟩ <;> rw [hc] at h <;> rw [h] <;>
    simp only []
  · simp only [jmem_heap_alloc_block_internal_slow, h, hc]
    rcases hr : (allocSlowGo (alignUp size) none ([] : List Region)).2 with _ | pr <;>
      simp [hr]
  · by_cases h8 : alignUp size = JMEM_ALIGNMENT
    · rw [if_pos h8, if_pos h8]
      simp [jmem_heap_alloc_block_internal_fast]
    · rw [if_neg h8, if_neg h8]
      simp only [jmem_heap_alloc_block_internal_slow, h, hc]
      rcases hr : (allocSlowGo (alignUp size) none (r :: rest)).2 with _ | pr <;>
        simp [hr]

/-- The internal allocation's success/failure and resulting free chain depend
only on the free chain of the input state. -/
theorem alloc_internal_chain_determined {cfg : HeapCfg} {size : Nat}
    {st su : HeapState} (h : st.freeChain = su.freeChain) :
    (jmem_heap_alloc_block_internal cfg size st).2 =
      (jmem_heap_alloc_block_internal cfg size su).2 ∧
    (jmem_heap_alloc_block_internal cfg size st).1.freeChain =
      (jmem_heap_alloc_block_internal cfg size su).1.freeChain := by
  have hcd := @alloc_core_chain_determined cfg size _ _ h
  rw [jmem_heap_alloc_block_internal, jmem_heap_alloc_block_internal]
  rcases hcore : (jmem_heap_alloc_block_internal_core cfg size su).2 with _ | p <;>
    simp only [hcore, hcd.1.trans hcore] <;>
    first
      | exact hcd.2
      | exact ⟨trivial, hcd.2⟩

/-! ### Free-path structural lemmas -/

theorem coversR_cons {r : Region} {c : List Region} {x : Nat} :
    coversR (r :: c) x ↔ inRegion r x ∨ coversR c x := by
  simp [coversR]

theorem coversR_nil {x : Nat} : ¬ coversR [] x := by
  simp [coversR]

/-- The result of the coalescing insertion is non-empty and its head keeps
the offset of the predecessor the walk stopped at. -/
theorem freeInsertGo_ne_nil (boff asize : Nat) (prev : Region) (c : List Region) :
    ∃ hd tl, freeInsertGo boff asize prev c = hd :: tl ∧ hd.off = prev.off := by
  induction c generalizing prev with
  | nil =>
    rw [freeInsertGo]
    split
    · exact ⟨_, _, rfl, rfl⟩
    · exact ⟨_, _, rfl, rfl⟩
  | cons r rest ih =>
    rw [freeInsertGo]
    by_cases h1 : r.off < boff
    · rw [if_pos h1]; exact ⟨_, _, rfl, rfl⟩
    · rw [if_neg h1]
      split
      · split
        · exact ⟨_, _, rfl, rfl⟩
        · exact ⟨_, _, rfl, rfl⟩
      · split
        · exact ⟨_, _, rfl, rfl⟩
        · exact ⟨_, _, rfl, rfl⟩

/-- The node recorded by the walk as final predecessor keeps its offset in
the inserted chain. -/
theorem freeInsertGo_lastBelow (boff asize : Nat) :
    ∀ (c : List Region) (prev : Region) (b : Nat),
      lastBelow boff (some prev.off) c = some b →
      ∃ r ∈ freeInsertGo boff asize prev c, r.off = b := by
  intro c
  induction c with
  | nil =>
    intro prev b h
    rw [lastBelow] at h
    injection h with h'
    obtain ⟨hd, tl, he, ho⟩ := freeInsertGo_ne_nil boff asize prev []
    rw [he]
    exact ⟨hd, List.mem_cons_self .., ho.trans h'⟩
  | cons r rest ih =>
    intro prev b h
    rw [lastBelow] at h
    by_cases h1 : r.off < boff
    · rw [if_pos h1] at h
      rw [freeInsertGo, if_pos h1]
      obtain ⟨r', hm, ho⟩ := ih r b h
      exact ⟨r', List.mem_cons_of_mem _ hm, ho⟩
    · rw [if_neg h1] at h
      injection h with h'
      obtain ⟨hd, tl, he, ho⟩ := freeInsertGo_ne_nil boff asize prev (r :: rest)
      rw [he]
      exact ⟨hd, List.mem_cons_self .., ho.trans h'⟩

/-- Top-level version of `freeInsertGo_lastBelow` starting at the sentinel. -/
theorem freeInsert_lastBelow (boff asize : Nat) (c : List Region) (b : Nat)
    (h : lastBelow boff none c = some b) :
    ∃ r ∈ freeInsert boff asize c, r.off = b := by
  cases c with
  | nil => rw [lastBelow] at h; exact absurd h (by simp)
  | cons r rest =>
    rw [lastBelow] at h
    by_cases h1 : r.off < boff
    · rw [if_pos h1] at h
      rw [freeInsert, if_pos h1]
      exact freeInsertGo_lastBelow boff asize rest r b h
    · rw [if_neg h1] at h
      exact absurd h (by simp)

theorem splitAtOff_eq {s : Nat} :
    ∀ {c pre post : List Region} {x : Region},
      splitAtOff s c = some (pre, x, post) → c = pre ++ x :: post ∧ x.off = s := by
  intro c
  induction c with
  | nil => intro pre post x h; exact absurd h (by simp [splitAtOff])
  | cons r rest ih =>
    intro pre post x h
    rw [splitAtOff] at h
    by_cases h1 : r.off = s
    · rw [if_pos h1] at h
      injection h with h'
      obtain ⟨rfl, rfl, rfl⟩ : pre = [] ∧ x = r ∧ post = rest := by
        refine ⟨?_, ?_, ?_⟩ <;> cases h' <;> rfl
      exact ⟨rfl, h1⟩
    · rw [if_neg h1] at h
      rcases hs : splitAtOff s rest with _ | pr
      · rw [hs] at h; exact absurd h (by simp)
      · rw [hs] at h
        injection h with h'
        obtain ⟨h2, h3⟩ := @ih pr.1 pr.2.2 pr.2.1 (by rw [hs])
        obtain ⟨rfl, rfl, rfl⟩ : pre = r :: pr.1 ∧ x = pr.2.1 ∧ post = pr.2.2 := by
          refine ⟨?_, ?_, ?_⟩ <;> cases h' <;> rfl
        exact ⟨by rw [h2, List.cons_append], h3⟩

theorem splitAtOff_found {s : Nat} :
    ∀ {c : List Region} {x : Region}, x ∈ c → x.off = s →
      ∃ pr, splitAtOff s c = some pr := by
  intro c
  induction c with
  | nil => intro x h _; exact absurd h (List.not_mem_nil _)
  | cons r rest ih =>
    intro x hm ho
    rw [splitAtOff]
    by_cases h1 : r.off = s
    · rw [if_pos h1]; exact ⟨_, rfl⟩
    · rw [if_neg h1]
      rcases List.mem_cons.1 hm with rfl | hm'
      · exact absurd ho h1
      · obtain ⟨pr, hpr⟩ := ih hm' ho
        rw [hpr]
        exact ⟨_, rfl⟩

/-- Walking over a prefix of nodes all below the block offset just emits the
prefix: starting the walk at a mid-chain node is equivalent to starting at
the head, provided everything before that node is below the block. -/
theorem freeInsertGo_append (boff asize : Nat) (x : Region) (post : List Region)
    (hx : x.off < boff) :
    ∀ (pre : List Region) (prev : Region), (∀ q ∈ pre, q.off < boff) →
      freeInsertGo boff asize prev (pre ++ x :: post) =
        prev :: (pre ++ freeInsertGo boff asize x post) := by
  intro pre
  induction pre with
  | nil =>
    intro prev hq
    rw [List.nil_append, freeInsertGo, if_pos hx, List.nil_append]
  | cons q pre' ih =>
    intro prev hq
    rw [List.cons_append, freeInsertGo, if_pos (hq q (List.mem_cons_self ..)),
      ih q (fun a ha => hq a (List.mem_cons_of_mem _ ha)), List.cons_append]

theorem freeInsert_append (boff asize : Nat) (x : Region) (post : List Region)
    (hx : x.off < boff) :
    ∀ (pre : List Region), (∀ q ∈ pre, q.off < boff) →
      freeInsert boff asize (pre ++ x :: post) =
        pre ++ freeInsertGo boff asize x post := by
  intro pre hq
  cases pre with
  | nil => rw [List.nil_append, freeInsert, if_pos hx, List.nil_append]
  | cons q pre' =>
    rw [List.cons_append, freeInsert, if_pos (hq q (List.mem_cons_self ..)),
      freeInsertGo_append boff asize x post hx pre' q
        (fun a ha => hq a (List.mem_cons_of_mem _ ha)), List.cons_append]

theorem lastBelow_append (boff : Nat) (x : Region) (post : List Region)
    (hx : x.off < boff) :
    ∀ (pre : List Region) (cur : Option Nat), (∀ q ∈ pre, q.off < boff) →
      lastBelow boff cur (pre ++ x :: post) = lastBelow boff (some x.off) post := by
  intro pre
  induction pre with
  | nil => intro cur hq; rw [List.nil_append, lastBelow, if_pos hx]
  | cons q pre' ih =>
    intro cur hq
    rw [List.cons_append, lastBelow, if_pos (hq q (List.mem_cons_self ..))]
    exact ih _ (fun a ha => hq a (List.mem_cons_of_mem _ ha))

/-- Master lemma of the coalescing insertion below a real predecessor node:
well-formedness (sorted, gapped, positive) is preserved, the covered byte
set grows by exactly the freed block, and the chain length reflects
precisely whether a predecessor merge (`prev.off + prev.size = boff`)
and/or a successor merge (`boff + asize = next.off`) happened. -/
theorem freeInsertGo_master (boff asize : Nat) (ha : 0 < asize) :
    ∀ (c : List Region) (prev : Region),
      (prev :: c).Pairwise adjR →
      (∀ r ∈ prev :: c, 0 < r.size) →
      (∀ r ∈ prev :: c, boff + asize ≤ r.off ∨ r.off + r.size ≤ boff) →
      prev.off < boff →
      ((freeInsertGo boff asize prev c).Pairwise adjR ∧
        (∀ r ∈ freeInsertGo boff asize prev c, 0 < r.size) ∧
        (∀ r ∈ freeInsertGo boff asize prev c, prev.off ≤ r.off)) ∧
      (∀ x, coversR (freeInsertGo boff asize prev c) x ↔
          (coversR (prev :: c) x ∨ (boff ≤ x ∧ x < boff + asize))) ∧
      ((freeInsertGo boff asize prev c).length
          + (if ∃ p ∈ prev :: c, p.off + p.size = boff then 1 else 0)
          + (if ∃ n ∈ prev :: c, boff + asize = n.off then 1 else 0)
        = (prev :: c).length + 1) := by
  intro c
  induction c with
  | nil =>
    intro prev hw hpos hdisj hp
    have hpe : prev.off + prev.size ≤ boff := by
      rcases hdisj prev (List.mem_cons_self ..) with h | h
      · omega
      · exact h
    have hS : ¬ ∃ n ∈ [prev], boff + asize = n.off := by
      rintro ⟨n, hn, he⟩
      simp only [List.mem_singleton] at hn
      subst hn
      omega
    rw [freeInsertGo]
    by_cases hm : prev.off + prev.size = boff
    · rw [if_pos hm]
      have hppos := hpos prev (List.mem_cons_self ..)
      refine ⟨⟨List.pairwise_singleton .., ?_, ?_⟩, ?_, ?_⟩
      · intro r hr
        simp only [List.mem_singleton] at hr
        subst hr
        show 0 < prev.size + asize
        omega
      · intro r hr
        simp only [List.mem_singleton] at hr
        subst hr
        exact le_refl _
      · intro x
        rw [coversR_cons, coversR_cons]
        simp only [coversR_nil, or_false, inRegion]
        omega
      · rw [if_pos ⟨prev, List.mem_cons_self .., hm⟩, if_neg hS]
        simp
    · rw [if_neg hm]
      have hppos := hpos prev (List.mem_cons_self ..)
      have hP : ¬ ∃ p ∈ [prev], p.off + p.size = boff := by
        rintro ⟨p, hp', he⟩
        simp only [List.mem_singleton] at hp'
        subst hp'
        exact hm he
      refine ⟨⟨?_, ?_, ?_⟩, ?_, ?_⟩
      · refine List.pairwise_cons.2 ⟨?_, List.pairwise_singleton ..⟩
        intro b hb
        simp only [List.mem_singleton] at hb
        subst hb
        show prev.off + prev.size < boff
        omega
      · intro r hr
        simp only [List.mem_cons, List.not_mem_nil, or_false] at hr
        rcases hr with rfl | rfl
        · exact hppos
        · exact ha
      · intro r hr
        simp only [List.mem_cons, List.not_mem_nil, or_false] at hr
        rcases hr with rfl | rfl
        · exact le_refl _
        · show prev.off ≤ boff
          omega
      · intro x
        rw [coversR_cons, coversR_cons, coversR_cons]
        simp only [coversR_nil, or_false, inRegion]
      · rw [if_neg hP, if_neg hS]
        simp
  | cons r rest ih =>
    intro prev hw hpos hdisj hp
    have hw1 := List.pairwise_cons.1 hw
    have hw2 := List.pairwise_cons.1 hw1.2
    have hpr : prev.off + prev.size < r.off := hw1.1 r (List.mem_cons_self ..)
    have hppos := hpos prev (List.mem_cons_self ..)
    have hrpos := hpos r (List.mem_cons_of_mem _ (List.mem_cons_self ..))
    have hpe : prev.off + prev.size ≤ boff := by
      rcases hdisj prev (List.mem_cons_self ..) with h | h
      · omega
      · exact h
    rw [freeInsertGo]
    by_cases h1 : r.off < boff
    · -- advance over `r`
      rw [if_pos h1]
      have hre : r.off + r.size ≤ boff := by
        rcases hdisj r (List.mem_cons_of_mem _ (List.mem_cons_self ..)) with h | h
        · omega
        · exact h
      obtain ⟨⟨ihwf, ihpos, ihge⟩, ihcov, ihlen⟩ := ih r hw1.2
        (fun e he => hpos e (List.mem_cons_of_mem _ he))
        (fun e he => hdisj e (List.mem_cons_of_mem _ he)) h1
      have hPiff : (∃ p ∈ prev :: r :: rest, p.off + p.size = boff) ↔
          (∃ p ∈ r :: rest, p.off + p.size = boff) := by
        constructor
        · rintro ⟨p, hpm, hep⟩
          rcases List.mem_cons.1 hpm with rfl | hpm'
          · omega
          · exact ⟨p, hpm', hep⟩
        · rintro ⟨p, hpm, hep⟩
          exact ⟨p, List.mem_cons_of_mem _ hpm, hep⟩
      have hSiff : (∃ n ∈ prev :: r :: rest, boff + asize = n.off) ↔
          (∃ n ∈ r :: rest, boff + asize = n.off) := by
        constructor
        · rintro ⟨n, hnm, hen⟩
          rcases List.mem_cons.1 hnm with rfl | hnm'
          · omega
          · exact ⟨n, hnm', hen⟩
        · rintro ⟨n, hnm, hen⟩
          exact ⟨n, List.mem_cons_of_mem _ hnm, hen⟩
      refine ⟨⟨?_, ?_, ?_⟩, ?_, ?_⟩
      · refine List.pairwise_cons.2 ⟨?_, ihwf⟩
        intro e he
        have := ihge e he
        show prev.off + prev.size < e.off
        omega
      · intro e he
        rcases List.mem_cons.1 he with rfl | he'
        · exact hppos
        · exact ihpos e he'
      · intro e he
        rcases List.mem_cons.1 he with rfl | he'
        · exact le_refl _
        · have := ihge e he'
          omega
      · intro x
        rw [coversR_cons, ihcov x, coversR_cons, coversR_cons, coversR_cons]
        itauto
      · have hPn : (if ∃ p ∈ prev :: r :: rest, p.off + p.size = boff then 1 else 0)
            = (if ∃ p ∈ r :: rest, p.off + p.size = boff then 1 else 0) := by
          by_cases h : ∃ p ∈ r :: rest, p.off + p.size = boff
          · rw [if_pos (hPiff.mpr h), if_pos h]
          · rw [if_neg (fun hc => h (hPiff.mp hc)), if_neg h]
        have hSn : (if ∃ n ∈ prev :: r :: rest, boff + asize = n.off then 1 else 0)
            = (if ∃ n ∈ r :: rest, boff + asize = n.off then 1 else 0) := by
          by_cases h : ∃ n ∈ r :: rest, boff + asize = n.off
          · rw [if_pos (hSiff.mpr h), if_pos h]
          · rw [if_neg (fun hc => h (hSiff.mp hc)), if_neg h]
        simp only [List.length_cons] at ihlen ⊢
        rw [hPn, hSn]
        omega
    · -- stop: `r` is the successor
      rw [if_neg h1]
      have hbr : boff + asize ≤ r.off := by
        rcases hdisj r (List.mem_cons_of_mem _ (List.mem_cons_self ..)) with h | h
        · exact h
        · omega
      have hrestoff : ∀ e ∈ rest, r.off + r.size < e.off := fun e he => hw2.1 e he
      have hrestpos : ∀ e ∈ rest, 0 < e.size := fun e he =>
        hpos e (List.mem_cons_of_mem _ (List.mem_cons_of_mem _ he))
      have hPiff : (∃ p ∈ prev :: r :: rest, p.off + p.size = boff) ↔
          prev.off + prev.size = boff := by
        constructor
        · rintro ⟨p, hpm, hep⟩
          rcases List.mem_cons.1 hpm with rfl | hpm'
          · exact hep
          · rcases List.mem_cons.1 hpm' with rfl | hpm''
            · omega
            · have := hrestoff p hpm''
              have := hrestpos p hpm''
              omega
        · intro h
          exact ⟨prev, List.mem_cons_self .., h⟩
      have hSiff : (∃ n ∈ prev :: r :: rest, boff + asize = n.off) ↔
          boff + asize = r.off := by
        constructor
        · rintro ⟨n, hnm, hen⟩
          rcases List.mem_cons.1 hnm with rfl | hnm'
          · omega
          · rcases List.mem_cons.1 hnm' with rfl | hnm''
            · exact hen
            · have := hrestoff n hnm''
              omega
        · intro h
          exact ⟨r, List.mem_cons_of_mem _ (List.mem_cons_self ..), h⟩
      have hPn : (if ∃ p ∈ prev :: r :: rest, p.off + p.size = boff then 1 else 0)
          = (if prev.off + prev.size = boff then 1 else 0) := by
        by_cases h : prev.off + prev.size = boff
        · rw [if_pos (hPiff.mpr h), if_pos h]
        · rw [if_neg (fun hc => h (hPiff.mp hc)), if_neg h]
      have hSn : (if ∃ n ∈ prev :: r :: rest, boff + asize = n.off then 1 else 0)
          = (if boff + asize = r.off then 1 else 0) := by
        by_cases h : boff + asize = r.off
        · rw [if_pos (hSiff.mpr h), if_pos h]
        · rw [if_neg (fun hc => h (hSiff.mp hc)), if_neg h]
      rw [hPn, hSn]
      by_cases hm1 : prev.off + prev.size = boff
      · rw [if_pos hm1]
        by_cases hm2 : prev.off + (prev.size + asize) = r.off
        · rw [if_pos hm2, if_pos (by omega : boff + asize = r.off)]
          refine ⟨⟨?_, ?_, ?_⟩, ?_, ?_⟩
          · refine List.pairwise_cons.2 ⟨?_, hw2.2⟩
            intro e he
            have := hrestoff e he
            show prev.off + (prev.size + asize + r.size) < e.off
            omega
          · intro e he
            rcases List.mem_cons.1 he with rfl | he'
            · show 0 < prev.size + asize + r.size
              omega
            · exact hrestpos e he'
          · intro e he
            rcases List.mem_cons.1 he with rfl | he'
            · exact le_refl _
            · have := hrestoff e he'
              omega
          · intro x
            rw [coversR_cons, coversR_cons, coversR_cons]
            have key : inRegion ⟨prev.off, prev.size + asize + r.size⟩ x ↔
                (inRegion prev x ∨ inRegion r x ∨ (boff ≤ x ∧ x < boff + asize)) := by
              simp only [inRegion]
              omega
            rw [key]
            itauto
          · have hc1 : (if prev.off + prev.size = boff then 1 else 0) = 1 :=
              if_pos hm1
            have hc2 : (if boff + asize = r.off then 1 else 0) = 1 :=
              if_pos (by omega)
            simp only [List.length_cons]
            omega
        · rw [if_neg hm2, if_neg (by omega : ¬ boff + asize = r.off)]
          refine ⟨⟨?_, ?_, ?_⟩, ?_, ?_⟩
          · refine List.pairwise_cons.2 ⟨?_, hw1.2⟩
            intro e he
            rcases List.mem_cons.1 he with rfl | he'
            · show prev.off + (prev.size + asize) < e.off
              omega
            · have := hrestoff e he'
              show prev.off + (prev.size + asize) < e.off
              omega
          · intro e he
            rcases List.mem_cons.1 he with rfl | he'
            · show 0 < prev.size + asize
              omega
            · rcases List.mem_cons.1 he' with rfl | he''
              · exact hrpos
              · exact hrestpos e he''
          · intro e he
            rcases List.mem_cons.1 he with rfl | he'
            · exact le_refl _
            · rcases List.mem_cons.1 he' with rfl | he''
              · omega
              · have := hrestoff e he''
                omega
          · intro x
            rw [coversR_cons, coversR_cons, coversR_cons, coversR_cons]
            have key : inRegion ⟨prev.off, prev.size + asize⟩ x ↔
                (inRegion prev x ∨ (boff ≤ x ∧ x < boff + asize)) := by
              simp only [inRegion]
              omega
            rw [key]
            itauto
          · have hc1 : (if prev.off + prev.size = boff then 1 else 0) = 1 :=
              if_pos hm1
            have hc2 : (if boff + asize = r.off then 1 else 0) = 0 :=
              if_neg (by omega)
            simp only [List.length_cons]
            omega
      · rw [if_neg hm1]
        have hpe' : prev.off + prev.size < boff := by omega
        by_cases hm2 : boff + asize = r.off
        · rw [if_pos hm2]
          refine ⟨⟨?_, ?_, ?_⟩, ?_, ?_⟩
          · refine List.pairwise_cons.2 ⟨?_, List.pairwise_cons.2 ⟨?_, hw2.2⟩⟩
            · intro e he
              rcases List.mem_cons.1 he with rfl | he'
              · show prev.off + prev.size < boff
                omega
              · have := hrestoff e he'
                show prev.off + prev.size < e.off
                omega
            · intro e he
              have := hrestoff e he
              show boff + (asize + r.size) < e.off
              omega
          · intro e he
            rcases List.mem_cons.1 he with rfl | he'
            · exact hppos
            · rcases List.mem_cons.1 he' with rfl | he''
              · show 0 < asize + r.size
                omega
              · exact hrestpos e he''
          · intro e he
            rcases List.mem_cons.1 he with rfl | he'
            · exact le_refl _
            · rcases List.mem_cons.1 he' with rfl | he''
              · show prev.off ≤ boff
                omega
              · have := hrestoff e he''
                omega
          · intro x
            rw [coversR_cons, coversR_cons, coversR_cons, coversR_cons]
            have key : inRegion ⟨boff, asize + r.size⟩ x ↔
                (inRegion r x ∨ (boff ≤ x ∧ x < boff + asize)) := by
              simp only [inRegion]
              omega
            rw [key]
            itauto
          · have hc1 : (if prev.off + prev.size = boff then 1 else 0) = 0 :=
              if_neg hm1
            have hc2 : (if boff + asize = r.off then 1 else 0) = 1 :=
              if_pos hm2
            simp only [List.length_cons]
            omega
        · rw [if_neg hm2]
          refine ⟨⟨?_, ?_, ?_⟩, ?_, ?_⟩
          · refine List.pairwise_cons.2 ⟨?_, List.pairwise_cons.2 ⟨?_, hw1.2⟩⟩
            · intro e he
              rcases List.mem_cons.1 he with rfl | he'
              · show prev.off + prev.size < boff
                omega
              · rcases List.mem_cons.1 he' with rfl | he''
                · exact hpr
                · exact hw1.1 e (List.mem_cons_of_mem _ he'')
            · intro e he
              rcases List.mem_cons.1 he with rfl | he'
              · simp only [adjR]
                omega
              · have := hrestoff e he'
                simp only [adjR]
                omega
          · intro e he
            rcases List.mem_cons.1 he with rfl | he'
            · exact hppos
            · rcases List.mem_cons.1 he' with rfl | he''
              · exact ha
              · rcases List.mem_cons.1 he'' with rfl | he'''
                · exact hrpos
                · exact hrestpos e he'''
          · intro e he
            rcases List.mem_cons.1 he with rfl | he'
            · exact le_refl _
            · rcases List.mem_cons.1 he' with rfl | he''
              · show prev.off ≤ boff
                omega
              · rcases List.mem_cons.1 he'' with rfl | he'''
                · omega
                · have := hrestoff e he'''
                  omega
          · intro x
            rw [coversR_cons, coversR_cons, coversR_cons, coversR_cons,
              coversR_cons]
            simp only [inRegion]
            itauto
          · have hc1 : (if prev.off + prev.size = boff then 1 else 0) = 0 :=
              if_neg hm1
            have hc2 : (if boff + asize = r.off then 1 else 0) = 0 :=
              if_neg hm2
            simp only [List.length_cons]
            omega

/-- Top-level master lemma of the coalescing insertion, starting from the
sentinel `first` (no predecessor merge can happen at the sentinel). -/
theorem freeInsert_master (boff asize : Nat) (ha : 0 < asize) (c : List Region)
    (hw : c.Pairwise adjR) (hpos : ∀ r ∈ c, 0 < r.size)
    (hdisj : ∀ r ∈ c, boff + asize ≤ r.off ∨ r.off + r.size ≤ boff) :
    ((freeInsert boff asize c).Pairwise adjR ∧
      (∀ r ∈ freeInsert boff asize c, 0 < r.size)) ∧
    (∀ x, coversR (freeInsert boff asize c) x ↔
        (coversR c x ∨ (boff ≤ x ∧ x < boff + asize))) ∧
    ((freeInsert boff asize c).length
        + (if ∃ p ∈ c, p.off + p.size = boff then 1 else 0)
        + (if ∃ n ∈ c, boff + asize = n.off then 1 else 0)
      = c.length + 1) := by
  cases c with
  | nil =>
    rw [freeInsert]
    refine ⟨⟨List.pairwise_singleton .., ?_⟩, ?_, ?_⟩
    · intro r hr
      simp only [List.mem_singleton] at hr
      subst hr
      exact ha
    · intro x
      rw [coversR_cons]
      simp [coversR_nil, inRegion]
    · simp
  | cons r rest =>
    have hw1 := List.pairwise_cons.1 hw
    have hrpos := hpos r (List.mem_cons_self ..)
    rw [freeInsert]
    by_cases h1 : r.off < boff
    · rw [if_pos h1]
      obtain ⟨⟨a1, a2, a3⟩, a4, a5⟩ :=
        freeInsertGo_master boff asize ha rest r hw hpos hdisj h1
      exact ⟨⟨a1, a2⟩, a4, a5⟩
    · rw [if_neg h1]
      have hbr : boff + asize ≤ r.off := by
        rcases hdisj r (List.mem_cons_self ..) with h | h
        · exact h
        · omega
      have hPf : ¬ ∃ p ∈ r :: rest, p.off + p.size = boff := by
        rintro ⟨p, hpm, he⟩
        rcases List.mem_cons.1 hpm with rfl | hpm'
        · omega
        · have h3 := hw1.1 p hpm'
          have h4 := hpos p (List.mem_cons_of_mem _ hpm')
          simp only [adjR] at h3
          omega
      have hSiff : (∃ n ∈ r :: rest, boff + asize = n.off) ↔
          boff + asize = r.off := by
        constructor
        · rintro ⟨n, hnm, he⟩
          rcases List.mem_cons.1 hnm with rfl | hnm'
          · exact he
          · have h3 := hw1.1 n hnm'
            simp only [adjR] at h3
            omega
        · intro h
          exact ⟨r, List.mem_cons_self .., h⟩
      have hc1 : (if ∃ p ∈ r :: rest, p.off + p.size = boff then 1 else 0) = 0 :=
        if_neg hPf
      have hrestoff : ∀ e ∈ rest, r.off + r.size < e.off := fun e he => hw1.1 e he
      have hrestpos : ∀ e ∈ rest, 0 < e.size := fun e he =>
        hpos e (List.mem_cons_of_mem _ he)
      by_cases hm2 : boff + asize = r.off
      · rw [if_pos hm2]
        have hc2 : (if ∃ n ∈ r :: rest, boff + asize = n.off then 1 else 0) = 1 :=
          if_pos (hSiff.mpr hm2)
        refine ⟨⟨?_, ?_⟩, ?_, ?_⟩
        · refine List.pairwise_cons.2 ⟨?_, hw1.2⟩
          intro e he
          have := hrestoff e he
          simp only [adjR]
          omega
        · intro e he
          rcases List.mem_cons.1 he with rfl | he'
          · show 0 < asize + r.size
            omega
          · exact hrestpos e he'
        · intro x
          rw [coversR_cons, coversR_cons]
          have key : inRegion ⟨boff, asize + r.size⟩ x ↔
              (inRegion r x ∨ (boff ≤ x ∧ x < boff + asize)) := by
            simp only [inRegion]
            omega
          rw [key]
          itauto
        · simp only [List.length_cons]
          omega
      · rw [if_neg hm2]
        have hc2 : (if ∃ n ∈ r :: rest, boff + asize = n.off then 1 else 0) = 0 :=
          if_neg (fun hc => hm2 (hSiff.mp hc))
        refine ⟨⟨?_, ?_⟩, ?_, ?_⟩
        · refine List.pairwise_cons.2 ⟨?_, hw⟩
          intro e he
          rcases List.mem_cons.1 he with rfl | he'
          · simp only [adjR]
            omega
          · have := hrestoff e he'
            simp only [adjR]
            omega
        · intro e he
          rcases List.mem_cons.1 he with rfl | he'
          · exact ha
          · rcases List.mem_cons.1 he' with rfl | he''
            · exact hrpos
            · exact hrestpos e he''
        · intro x
          rw [coversR_cons, coversR_cons]
          simp only [inRegion]
          itauto
        · simp only [List.length_cons]
          omega

/-- Under the skip-pointer invariant and sortedness, the free walk that
starts at the skip pointer produces the same chain and the same final
predecessor as the walk from the sentinel `first`. -/
theorem free_internal_eq_freeInsert {cfg : HeapCfg} {boff size : Nat}
    {st : HeapState} (hw : st.freeChain.Pairwise adjR) (hs : skipInvP st) :
    (jmem_heap_free_block_internal cfg boff size st).freeChain
        = freeInsert boff (alignUp size) st.freeChain ∧
    (jmem_heap_free_block_internal cfg boff size st).skipP
        = lastBelow boff none st.freeChain := by
  rw [jmem_heap_free_block_internal]
  rcases hsk : st.skipP with _ | s
  · exact ⟨rfl, rfl⟩
  · by_cases hlt : s < boff
    · rcases hs with h0 | ⟨x, hm, hx⟩
      · rw [hsk] at h0
        exact absurd h0 (by simp)
      · rw [hsk] at hx
        injection hx with hx'
        obtain ⟨pr, hpr⟩ := splitAtOff_found hm hx'.symm
        obtain ⟨hc, ho⟩ := @splitAtOff_eq s _ pr.1 pr.2.2 pr.2.1 (by rw [hpr])
        have hxo : pr.2.1.off < boff := by rw [ho]; omega
        have hpre : ∀ q ∈ pr.1, q.off < boff := by
          intro q hq
          have hax : adjR q pr.2.1 := by
            rw [hc] at hw
            exact (List.pairwise_append.1 hw).2.2 q hq pr.2.1
              (List.mem_cons_self ..)
          simp only [adjR] at hax
          omega
        simp only [hsk, if_pos hlt, hpr]
        constructor
        · show pr.1 ++ freeInsertGo boff (alignUp size) pr.2.1 pr.2.2 = _
          rw [hc]
          exact (freeInsert_append boff (alignUp size) pr.2.1 pr.2.2 hxo pr.1
            hpre).symm
        · show lastBelow boff (some pr.2.1.off) pr.2.2 = _
          rw [hc]
          exact (lastBelow_append boff pr.2.1 pr.2.2 hxo pr.1 none hpre).symm
    · simp only [hsk, if_neg hlt]
      constructor <;> first | rfl | trivial

/-- Every free operation re-establishes the claimed skip-pointer invariant,
unconditionally: afterwards `skip_p` is `&first` or a node of the list. -/
theorem free_internal_skipInv (cfg : HeapCfg) (boff size : Nat) (st : HeapState) :
    skipInvP (jmem_heap_free_block_internal cfg boff size st) := by
  rw [jmem_heap_free_block_internal, skipInvP]
  rcases hsk : st.skipP with _ | s
  · simp only []
    rcases hlb : lastBelow boff none st.freeChain with _ | b
    · exact Or.inl rfl
    · obtain ⟨r, hm, ho⟩ :=
        freeInsert_lastBelow boff (alignUp size) st.freeChain b hlb
      exact Or.inr ⟨r, hm, by rw [ho]⟩
  · by_cases hlt : s < boff
    · rcases hsp : splitAtOff s st.freeChain with _ | pr
      · simp only [hsk, if_pos hlt, hsp]
        rcases hlb : lastBelow boff none st.freeChain with _ | b
        · exact Or.inl rfl
        · obtain ⟨r, hm, ho⟩ :=
            freeInsert_lastBelow boff (alignUp size) st.freeChain b hlb
          exact Or.inr ⟨r, hm, by rw [ho]⟩
      · simp only [hsk, if_pos hlt, hsp]
        rcases hlb : lastBelow boff (some pr.2.1.off) pr.2.2 with _ | b
        · exact Or.inl rfl
        · obtain ⟨r, hm, ho⟩ :=
            freeInsertGo_lastBelow boff (alignUp size) pr.2.2 pr.2.1 b hlb
          exact Or.inr ⟨r, List.mem_append_right _ hm, by rw [ho]⟩
    · simp only [hsk, if_neg hlt]
      rcases hlb : lastBelow boff none st.freeChain with _ | b
      · exact Or.inl rfl
      · obtain ⟨r, hm, ho⟩ :=
          freeInsert_lastBelow boff (alignUp size) st.freeChain b hlb
        exact Or.inr ⟨r, hm, by rw [ho]⟩

/-- State-level master lemma for a single `jmem_heap_free_block_internal` on
a well-formed state: the resulting chain is the sentinel-start coalescing
insertion; well-formedness is preserved; the covered set grows by exactly
the freed block; and the length equation characterises the two merges. -/
theorem free_block_master (cfg : HeapCfg) (boff size : Nat) (st : HeapState)
    (hw : wfChain st.freeChain) (hs : skipInvP st) (hsz : 0 < size)
    (hdv : JMEM_ALIGNMENT ∣ size)
    (hdisj : ∀ r ∈ st.freeChain, boff + size ≤ r.off ∨ r.off + r.size ≤ boff) :
    (jmem_heap_free_block_internal cfg boff size st).freeChain
        = freeInsert boff size st.freeChain ∧
    wfChain (jmem_heap_free_block_internal cfg boff size st).freeChain ∧
    (∀ x, coversR (jmem_heap_free_block_internal cfg boff size st).freeChain x ↔
        (coversR st.freeChain x ∨ (boff ≤ x ∧ x < boff + size))) ∧
    ((jmem_heap_free_block_internal cfg boff size st).freeChain.length
        + (if ∃ p ∈ st.freeChain, p.off + p.size = boff then 1 else 0)
        + (if ∃ n ∈ st.freeChain, boff + size = n.off then 1 else 0)
      = st.freeChain.length + 1) := by
  have hal : alignUp size = size := alignUp_of_dvd hdv
  have heq := @free_internal_eq_freeInsert cfg boff size _ hw.1 hs
  rw [hal] at heq
  obtain ⟨⟨m1, m2⟩, m3, m4⟩ :=
    freeInsert_master boff size hsz st.freeChain hw.1 hw.2 hdisj
  refine ⟨heq.1, ?_, ?_, ?_⟩
  · rw [heq.1]
    exact ⟨m1, m2⟩
  · intro x
    rw [heq.1]
    exact m3 x
  · rw [heq.1]
    exact m4

/-- Two distinct members of a pairwise-related list are related one way or
the other. -/
theorem pairwise_rel_of_mem {R : Region → Region → Prop} :
    ∀ {c : List Region}, c.Pairwise R → ∀ {a b : Region}, a ∈ c → b ∈ c →
      a ≠ b → R a b ∨ R b a := by
  intro c hc
  induction hc with
  | nil => intro a b ha _ _; exact absurd ha (List.not_mem_nil _)
  | cons hhead _ ih =>
    intro a b ha hb hne
    rcases List.mem_cons.1 ha with rfl | ha'
    · rcases List.mem_cons.1 hb with rfl | hb'
      · exact absurd rfl hne
      · exact Or.inl (hhead b hb')
    · rcases List.mem_cons.1 hb with rfl | hb'
      · exact Or.inr (hhead a ha')
      · exact ih ha' hb' hne

/-- In a well-formed (sorted, gapped) free list, a fully covered non-empty
contiguous byte range lies inside exactly one free region. -/
theorem wf_unique_span {c : List Region} (hw : c.Pairwise adjR)
    (hpos : ∀ r ∈ c, 0 < r.size) {lo hi : Nat} (hlh : lo < hi)
    (hcov : ∀ x, lo ≤ x → x < hi → coversR c x) :
    ∃! r, r ∈ c ∧ r.off ≤ lo ∧ hi ≤ r.off + r.size := by
  obtain ⟨r, hrm, hrlo⟩ := hcov lo (le_refl _) hlh
  obtain ⟨hr1, hr2⟩ := hrlo
  have hhi : hi ≤ r.off + r.size := by
    by_contra hcon
    push_neg at hcon
    have hx1 : lo ≤ r.off + r.size := by omega
    obtain ⟨q, hqm, hqx⟩ := hcov (r.off + r.size) hx1 hcon
    obtain ⟨hq1, hq2⟩ := hqx
    have hne : q ≠ r := by
      intro h
      subst h
      omega
    rcases pairwise_rel_of_mem hw hqm hrm hne with h | h <;>
      simp only [adjR] at h <;> omega
  refine ⟨r, ⟨hrm, hr1, hhi⟩, ?_⟩
  rintro q ⟨hqm, hqlo, hqhi⟩
  by_contra hne
  rcases pairwise_rel_of_mem hw hqm hrm hne with h | h <;>
    simp only [adjR] at h <;> omega

/-- Two regions of positive size that are not range-disjoint share a byte. -/
theorem overlap_of_not_disj {a b : Region} (hpa : 0 < a.size)
    (hpb : 0 < b.size)
    (h : ¬ (a.off + a.size ≤ b.off ∨ b.off + b.size ≤ a.off)) :
    ∃ x, inRegion a x ∧ inRegion b x := by
  push_neg at h
  refine ⟨max a.off b.off, ?_, ?_⟩ <;> simp only [inRegion] <;>
    constructor <;> omega

/-- A block none of whose bytes is free is range-disjoint from every free
region. -/
theorem disj_of_not_covers {c : List Region} {b : Region}
    (hpos : ∀ r ∈ c, 0 < r.size) (hb : 0 < b.size)
    (h : ∀ x, inRegion b x → ¬ coversR c x) :
    ∀ r ∈ c, b.off + b.size ≤ r.off ∨ r.off + r.size ≤ b.off := by
  intro r hr
  by_contra hcon
  obtain ⟨x, hxb, hxr⟩ := overlap_of_not_disj hb (hpos r hr) hcon
  exact h x hxb ⟨r, hr, hxr⟩

/-- Folding frees of pairwise-disjoint allocated blocks over a well-formed
state keeps the state well formed and grows the free byte set by exactly
the union of the blocks, in any order. -/
theorem free_fold_invariant (cfg : HeapCfg) :
    ∀ (bs : List Region) (st : HeapState),
      wfChain st.freeChain → skipInvP st →
      (∀ b ∈ bs, 0 < b.size ∧ JMEM_ALIGNMENT ∣ b.size) →
      bs.Pairwise (fun a b => a.off + a.size ≤ b.off ∨ b.off + b.size ≤ a.off) →
      (∀ b ∈ bs, ∀ x, inRegion b x → ¬ coversR st.freeChain x) →
      wfChain (bs.foldl (fun s b => jmem_heap_free_block cfg b.off b.size s)
          st).freeChain ∧
      skipInvP (bs.foldl (fun s b => jmem_heap_free_block cfg b.off b.size s)
          st) ∧
      (∀ x, coversR (bs.foldl
            (fun s b => jmem_heap_free_block cfg b.off b.size s) st).freeChain x
          ↔ (coversR st.freeChain x ∨ ∃ b ∈ bs, inRegion b x)) := by
  intro bs
  induction bs with
  | nil =>
    intro st hw hs _ _ _
    refine ⟨hw, hs, fun x => ?_⟩
    simp
  | cons b bs ih =>
    intro st hw hs hprops hpair hdisj
    obtain ⟨hb1, hb2⟩ := hprops b (List.mem_cons_self ..)
    have hdisj1 : ∀ r ∈ st.freeChain,
        b.off + b.size ≤ r.off ∨ r.off + r.size ≤ b.off :=
      disj_of_not_covers hw.2 hb1 (hdisj b (List.mem_cons_self ..))
    obtain ⟨hceq, hwf1, hcov1, _⟩ :=
      free_block_master cfg b.off b.size st hw hs hb1 hb2 hdisj1
    have hs1 : skipInvP (jmem_heap_free_block cfg b.off b.size st) :=
      free_internal_skipInv cfg b.off b.size st
    have hdisj' : ∀ b' ∈ bs, ∀ x, inRegion b' x →
        ¬ coversR (jmem_heap_free_block cfg b.off b.size st).freeChain x := by
      intro b' hb' x hx hcx
      rcases (hcov1 x).1 hcx with h | h
      · exact hdisj b' (List.mem_cons_of_mem _ hb') x hx h
      · have hd := (List.pairwise_cons.1 hpair).1 b' hb'
        obtain ⟨hx1, hx2⟩ := hx
        rcases hd with h2 | h2 <;> omega
    obtain ⟨f1, f2, f3⟩ := ih (jmem_heap_free_block cfg b.off b.size st) hwf1
      hs1 (fun q hq => hprops q (List.mem_cons_of_mem _ hq))
      (List.pairwise_cons.1 hpair).2 hdisj'
    have hcov1' : ∀ x,
        coversR (jmem_heap_free_block cfg b.off b.size st).freeChain x ↔
          (coversR st.freeChain x ∨ (b.off ≤ x ∧ x < b.off + b.size)) := hcov1
    rw [List.foldl_cons]
    refine ⟨f1, f2, fun x => ?_⟩
    rw [f3 x, hcov1' x]
    simp only [List.mem_cons]
    constructor
    · rintro ((h | h) | h)
      · exact Or.inl h
      · exact Or.inr ⟨b, Or.inl rfl, h⟩
      · obtain ⟨q, hq, hxq⟩ := h
        exact Or.inr ⟨q, Or.inr hq, hxq⟩
    · rintro (h | ⟨q, (rfl | hq), hxq⟩)
      · exact Or.inl (Or.inl h)
      · exact Or.inl (Or.inr hxq)
      · exact Or.inr ⟨q, hq, hxq⟩

/-! ### Segment occupancy walk lemmas -/

theorem segOccupyGo_left_zero (seg fuel fs be : Nat) :
    segOccupyGo seg fuel fs be 0 = [] := by
  cases fuel with
  | zero => rfl
  | succ f =>
    rw [segOccupyGo]
    simp

/-- The occupancy walk distributes exactly the block size over the touched
segments, and only touches segments overlapping the block's offset range. -/
theorem segOccupyGo_sum {seg : Nat} (h8seg : JMEM_ALIGNMENT ∣ seg)
    (hseg : 0 < seg) :
    ∀ (fuel left fs : Nat), left ≤ fuel → JMEM_ALIGNMENT ∣ fs →
      JMEM_ALIGNMENT ∣ left →
      ((segOccupyGo seg fuel fs (fs + left - JMEM_ALIGNMENT) left).map
          (fun q => q.2)).sum = left ∧
      ∀ q ∈ segOccupyGo seg fuel fs (fs + left - JMEM_ALIGNMENT) left,
        q.1 * seg < fs + left := by
  have h8seg' : 8 ∣ seg := h8seg
  intro fuel
  induction fuel with
  | zero =>
    intro left fs hle _ _
    have : left = 0 := by omega
    subst this
    simp [segOccupyGo]
  | succ f ih =>
    intro left fs hle h8fs h8l
    have h8fs' : (8 : Nat) ∣ fs := h8fs
    have h8l' : (8 : Nat) ∣ left := h8l
    by_cases hl : 0 < left
    case neg =>
      have : left = 0 := by omega
      subst this
      simp [segOccupyGo_left_zero]
    case pos =>
      have hleft8 : 8 ≤ left := by omega
      rw [segOccupyGo]
      rw [if_pos ⟨hl, hseg⟩]
      simp only [JMEM_ALIGNMENT]
      have hdm : seg * (fs / seg) + fs % seg = fs := Nat.div_add_mod fs seg
      have hmlt : fs % seg < seg := Nat.mod_lt _ hseg
      have hmd : (8 : Nat) ∣ fs % seg := (Nat.dvd_mod_iff h8seg').2 h8fs'
      have hE : (fs / seg + 1) * seg = seg * (fs / seg) + seg := by ring
      have hfsE : fs < (fs / seg + 1) * seg := by omega
      have hdE : (8 : Nat) ∣ (fs / seg + 1) * seg := Dvd.dvd.mul_left h8seg' _
      have hfs8E : fs + 8 ≤ (fs / seg + 1) * seg := by omega
      have hdivle : fs / seg * seg ≤ fs := Nat.div_mul_le_self fs seg
      by_cases hbe : fs + left - 8 < (fs / seg + 1) * seg - 8
      · rw [if_pos hbe]
        have hin : fs + left - 8 - fs + 8 = left := by omega
        rw [hin]
        have hz : left - left = 0 := by omega
        rw [show fs + left - 8 - fs + 8 = left from hin] at *
        rw [hz, segOccupyGo_left_zero]
        refine ⟨by simp, ?_⟩
        intro q hq
        simp only [List.mem_singleton] at hq
        subst hq
        show fs / seg * seg < fs + left
        omega
      · rw [if_neg hbe]
        have hEle : (fs / seg + 1) * seg ≤ fs + left := by omega
        have hinS : (fs / seg + 1) * seg - 8 - fs + 8 = (fs / seg + 1) * seg - fs := by
          omega
        rw [hinS]
        have hnfs : (fs / seg + 1) * seg - 8 + 8 = (fs / seg + 1) * seg := by omega
        rw [hnfs]
        have h8in : (8 : Nat) ∣ (fs / seg + 1) * seg - fs := Nat.dvd_sub' hdE h8fs'
        have hinle : (fs / seg + 1) * seg - fs ≤ left := by omega
        have hinpos : 8 ≤ (fs / seg + 1) * seg - fs := by omega
        have hle' : left - ((fs / seg + 1) * seg - fs) ≤ f := by omega
        have h8l2 : (8 : Nat) ∣ left - ((fs / seg + 1) * seg - fs) :=
          Nat.dvd_sub' h8l' h8in
        have hbeq : fs + left - 8
            = (fs / seg + 1) * seg + (left - ((fs / seg + 1) * seg - fs)) - 8 := by
          omega
        rw [hbeq]
        obtain ⟨ihsum, ihmem⟩ := ih (left - ((fs / seg + 1) * seg - fs))
          ((fs / seg + 1) * seg) hle' hdE h8l2
        simp only [JMEM_ALIGNMENT] at ihsum ihmem
        constructor
        · rw [List.map_cons, List.sum_cons, ihsum]
          omega
        · intro q hq
          rcases List.mem_cons.1 hq with rfl | hq'
          · show fs / seg * seg < fs + left
            omega
          · have := ihmem q hq'
            omega

/-- Total attribution of the full walk `segOccupyList`. -/
theorem segOccupyList_sum {seg off size : Nat} (h8seg : JMEM_ALIGNMENT ∣ seg)
    (hseg : 0 < seg) (h8off : JMEM_ALIGNMENT ∣ off)
    (h8size : JMEM_ALIGNMENT ∣ size) :
    ((segOccupyList seg off size).map (fun q => q.2)).sum = size ∧
    ∀ q ∈ segOccupyList seg off size, q.1 * seg < off + size := by
  rw [segOccupyList]
  exact segOccupyGo_sum h8seg hseg size size off (le_refl _) h8off h8size

theorem sum_set_getD (v : Int) :
    ∀ (l : List Int) (i : Nat), i < l.length →
      (l.set i (l.getD i 0 + v)).sum = l.sum + v := by
  intro l
  induction l with
  | nil => intro i hi; simp at hi
  | cons a t ih =>
    intro i hi
    cases i with
    | zero =>
      simp only [List.set, List.getD_cons_zero, List.sum_cons]
      ring
    | succ n =>
      simp only [List.set, List.getD_cons_succ, List.sum_cons]
      rw [ih n (by simpa using hi)]
      ring

/-- Applying the walk's per-segment deltas shifts the total occupancy by the
signed sum of the attributed byte counts. -/
theorem segApply_sum (sgn : Int) :
    ∀ (upd : List (Nat × Nat)) (segs : List Int),
      (∀ q ∈ upd, q.1 < segs.length) →
      (segApply segs upd sgn).sum
        = segs.sum + sgn * (((upd.map (fun q => q.2)).sum : Nat) : Int) ∧
      (segApply segs upd sgn).length = segs.length := by
  intro upd
  induction upd with
  | nil =>
    intro segs _
    simp [segApply]
  | cons q t ih =>
    intro segs hq
    have hset := sum_set_getD (sgn * (q.2 : Int)) segs q.1
      (hq q (List.mem_cons_self ..))
    have hlen : (segs.set q.1 (segs.getD q.1 0 + sgn * (q.2 : Int))).length
        = segs.length := List.length_set ..
    have hrec := ih (segs.set q.1 (segs.getD q.1 0 + sgn * (q.2 : Int)))
      (fun p hp => by rw [hlen]; exact hq p (List.mem_cons_of_mem _ hp))
    rw [segApply] at hrec ⊢
    rw [List.foldl_cons]
    refine ⟨?_, ?_⟩
    · rw [hrec.1, hset, List.map_cons, List.sum_cons, Nat.cast_add, mul_add]
      ring
    · rw [hrec.2, hlen]

/-- A successful first-fit walk matched a region of the chain that is large
enough, returning its offset. -/
theorem allocSlowGo_found {need : Nat} :
    ∀ {c : List Region} {po : Option Nat} {p : Nat} {q : Option Nat},
      (allocSlowGo need po c).2 = some (p, q) →
      ∃ r ∈ c, r.off = p ∧ need ≤ r.size := by
  intro c
  induction c with
  | nil => intro po p q h; exact absurd h (by simp [allocSlowGo])
  | cons r rest ih =>
    intro po p q h
    rw [allocSlowGo] at h
    by_cases h1 : need ≤ r.size
    · rw [if_pos h1] at h
      by_cases h2 : need < r.size
      · rw [if_pos h2] at h
        simp only [Option.some_inj, Prod.mk.injEq] at h
        exact ⟨r, List.mem_cons_self .., h.1, h1⟩
      · rw [if_neg h2] at h
        simp only [Option.some_inj, Prod.mk.injEq] at h
        exact ⟨r, List.mem_cons_self .., h.1, h1⟩
    · rw [if_neg h1] at h
      simp only at h
      obtain ⟨r', hm, ho, hsz⟩ := ih h
      exact ⟨r', List.mem_cons_of_mem _ hm, ho, hsz⟩

/-- The segmented-occupancy sum invariant is preserved by the slow
allocation path. -/
theorem alloc_slow_segsum {cfg : HeapCfg} {need : Nat} {st : HeapState}
    (h8seg : JMEM_ALIGNMENT ∣ cfg.segSize) (hseg : 0 < cfg.segSize)
    (h8need : JMEM_ALIGNMENT ∣ need)
    (hlen : st.segOccupied.length = cfg.segCount)
    (hbnd : chainInBounds cfg st.freeChain)
    (hsum : SegSumInv st) :
    SegSumInv (jmem_heap_alloc_block_internal_slow cfg need st).1 ∧
    (jmem_heap_alloc_block_internal_slow cfg need st).1.segOccupied.length
      = cfg.segCount := by
  rw [jmem_heap_alloc_block_internal_slow]
  rcases hr : (allocSlowGo need none st.freeChain).2 with _ | pr
  · exact ⟨hsum, hlen⟩
  · simp only []
    obtain ⟨p, q⟩ := pr
    obtain ⟨r0, hr0m, hr0off, hr0sz⟩ := allocSlowGo_found hr
    obtain ⟨hoff8, hsz8, hbound⟩ := hbnd r0 hr0m
    have hple : p + need ≤ cfg.segCount * cfg.segSize := by omega
    obtain ⟨wsum, wmem⟩ := @segOccupyList_sum cfg.segSize p need
      h8seg hseg (hr0off ▸ hoff8) h8need
    have hidx : ∀ qq ∈ segOccupyList cfg.segSize p need,
        qq.1 < st.segOccupied.length := by
      intro qq hqq
      have h1 := wmem qq hqq
      rw [hlen]
      have h2 : qq.1 * cfg.segSize < cfg.segCount * cfg.segSize := by omega
      exact lt_of_mul_lt_mul_right h2 (Nat.zero_le _)
    obtain ⟨asum, alen⟩ :=
      segApply_sum 1 (segOccupyList cfg.segSize p need) st.segOccupied hidx
    rw [SegSumInv] at hsum
    constructor
    · rw [SegSumInv]
      show (segApply st.segOccupied (segOccupyList cfg.segSize p need) 1).sum = _
      rw [asum, wsum, hsum]
      push_cast
      ring
    · exact hlen ▸ alen

/-- The segmented-occupancy sum invariant is preserved by the fast
allocation path. -/
theorem alloc_fast_segsum {cfg : HeapCfg} {st : HeapState} {r : Region}
    {rest : List Region} (hseg : 0 < cfg.segSize)
    (hlen : st.segOccupied.length = cfg.segCount)
    (hchain : st.freeChain = r :: rest)
    (hbnd : chainInBounds cfg st.freeChain) (hrpos : 0 < r.size)
    (hsum : SegSumInv st) :
    SegSumInv (jmem_heap_alloc_block_internal_fast cfg st r rest).1 ∧
    (jmem_heap_alloc_block_internal_fast cfg st r rest).1.segOccupied.length
      = cfg.segCount := by
  obtain ⟨hoff8, hsz8, hbound⟩ := hbnd r (hchain ▸ List.mem_cons_self ..)
  have hsidx : r.off / cfg.segSize < st.segOccupied.length := by
    rw [hlen, Nat.div_lt_iff_lt_mul hseg]
    omega
  rw [jmem_heap_alloc_block_internal_fast]
  rw [SegSumInv] at hsum
  constructor
  · rw [SegSumInv]
    show (st.segOccupied.set (r.off / cfg.segSize)
        (st.segOccupied.getD (r.off / cfg.segSize) 0 + (JMEM_ALIGNMENT : Int))).sum
      = ((st.blocksSize + JMEM_ALIGNMENT : Nat) : Int)
    rw [sum_set_getD _ _ _ hsidx, hsum]
    push_cast
    ring
  · show (st.segOccupied.set _ _).length = _
    rw [List.length_set, hlen]

/-- The segmented-occupancy sum invariant is preserved by
`jmem_heap_alloc_block_internal`. -/
theorem alloc_internal_segsum {cfg : HeapCfg} {size : Nat} {st : HeapState}
    (h8seg : JMEM_ALIGNMENT ∣ cfg.segSize) (hseg : 0 < cfg.segSize)
    (hlen : st.segOccupied.length = cfg.segCount)
    (hbnd : chainInBounds cfg st.freeChain)
    (hpos : ∀ r ∈ st.freeChain, 0 < r.size)
    (hsum : SegSumInv st) :
    SegSumInv (jmem_heap_alloc_block_internal cfg size st).1 ∧
    (jmem_heap_alloc_block_internal cfg size st).1.segOccupied.length
      = cfg.segCount := by
  have hcore : SegSumInv (jmem_heap_alloc_block_internal_core cfg size st).1 ∧
      (jmem_heap_alloc_block_internal_core cfg size st).1.segOccupied.length
        = cfg.segCount := by
    rw [jmem_heap_alloc_block_internal_core]
    rcases hc : st.freeChain with _ | ⟨r, rest⟩
    · exact alloc_slow_segsum h8seg hseg (alignUp_dvd size) hlen hbnd hsum
    · simp only []
      by_cases h8 : alignUp size = JMEM_ALIGNMENT
      · rw [if_pos h8]
        exact alloc_fast_segsum hseg hlen hc hbnd
          (hpos r (hc ▸ List.mem_cons_self ..)) hsum
      · rw [if_neg h8]
        exact alloc_slow_segsum h8seg hseg (alignUp_dvd size) hlen hbnd hsum
  rw [jmem_heap_alloc_block_internal]
  rcases hres : (jmem_heap_alloc_block_internal_core cfg size st).2 with _ | p <;>
    simp only [hres] <;> exact hcore

/-- The segmented-occupancy sum invariant is preserved by
`jmem_heap_free_block_internal` when a live aligned in-bounds block is
freed. -/
theorem free_internal_segsum {cfg : HeapCfg} {boff size : Nat} {st : HeapState}
    (h8seg : JMEM_ALIGNMENT ∣ cfg.segSize) (hseg : 0 < cfg.segSize)
    (hlen : st.segOccupied.length = cfg.segCount)
    (h8off : JMEM_ALIGNMENT ∣ boff)
    (hble : alignUp size ≤ st.blocksSize)
    (hbnd2 : boff + alignUp size ≤ cfg.segCount * cfg.segSize)
    (hsum : SegSumInv st) :
    SegSumInv (jmem_heap_free_block_internal cfg boff size st) ∧
    (jmem_heap_free_block_internal cfg boff size st).segOccupied.length
      = cfg.segCount := by
  obtain ⟨wsum, wmem⟩ := @segOccupyList_sum cfg.segSize boff (alignUp size)
    h8seg hseg h8off (alignUp_dvd size)
  have hidx : ∀ qq ∈ segOccupyList cfg.segSize boff (alignUp size),
      qq.1 < st.segOccupied.length := by
    intro qq hqq
    have h1 := wmem qq hqq
    rw [hlen]
    have h2 : qq.1 * cfg.segSize < cfg.segCount * cfg.segSize := by omega
    exact lt_of_mul_lt_mul_right h2 (Nat.zero_le _)
  obtain ⟨asum, alen⟩ := segApply_sum (-1)
    (segOccupyList cfg.segSize boff (alignUp size)) st.segOccupied hidx
  rw [SegSumInv] at hsum
  rw [jmem_heap_free_block_internal]
  constructor
  · rw [SegSumInv]
    show (segApply st.segOccupied
        (segOccupyList cfg.segSize boff (alignUp size)) (-1)).sum
      = ((st.blocksSize - alignUp size : Nat) : Int)
    rw [asum, wsum, hsum, Nat.cast_sub hble]
    ring
  · show (segApply _ _ _).length = _
    rw [alen, hlen]

/-- The core dispatch never touches the heap limit or the statistics. -/
theorem alloc_core_frame {cfg : HeapCfg} {size : Nat} {st : HeapState} :
    (jmem_heap_alloc_block_internal_core cfg size st).1.heapLimit
        = st.heapLimit ∧
    (jmem_heap_alloc_block_internal_core cfg size st).1.stats = st.stats := by
  rw [jmem_heap_alloc_block_internal_core]
  rcases hc : st.freeChain with _ | ⟨r, rest⟩
  · rw [jmem_heap_alloc_block_internal_slow]
    rcases hr : (allocSlowGo (alignUp size) none st.freeChain).2 with _ | pr <;>
      exact ⟨rfl, rfl⟩
  · simp only []
    by_cases h8 : alignUp size = JMEM_ALIGNMENT
    · rw [if_pos h8]
      exact ⟨rfl, rfl⟩
    · rw [if_neg h8]
      rw [jmem_heap_alloc_block_internal_slow]
      rcases hr : (allocSlowGo (alignUp size) none st.freeChain).2 with _ | pr <;>
        exact ⟨rfl, rfl⟩

/-- `jmem_heap_alloc_block_internal` leaves the heap limit at least
`blocks_size`, strictly above it, and a multiple of the desired-limit step. -/
theorem alloc_internal_limitInv {cfg : HeapCfg} {size : Nat} {st : HeapState}
    (hd : 0 < cfg.desiredLimit)
    (hdvd : cfg.desiredLimit ∣ st.heapLimit) :
    LimitInv cfg.desiredLimit (jmem_heap_alloc_block_internal cfg size st).1 ∧
    (jmem_heap_alloc_block_internal cfg size st).1.blocksSize <
      (jmem_heap_alloc_block_internal cfg size st).1.heapLimit := by
  have hfr := @alloc_core_frame cfg size st
  rw [jmem_heap_alloc_block_internal]
  rcases hres : (jmem_heap_alloc_block_internal_core cfg size st).2 with _ | p <;>
    simp only [hres] <;>
    refine ⟨⟨le_of_lt (raiseLimit_gt hd _ _), ?_⟩, raiseLimit_gt hd _ _⟩ <;>
    exact raiseLimit_dvd (hfr.1 ▸ hdvd) _

/-- `jmem_heap_free_block_internal` keeps the heap limit at least
`blocks_size` and a multiple of the desired-limit step. -/
theorem free_internal_limitInv {cfg : HeapCfg} {boff size : Nat}
    {st : HeapState} (hd : 0 < cfg.desiredLimit)
    (h : LimitInv cfg.desiredLimit st) :
    LimitInv cfg.desiredLimit (jmem_heap_free_block_internal cfg boff size st) := by
  rw [jmem_heap_free_block_internal]
  refine ⟨?_, ?_⟩
  · show st.blocksSize - alignUp size ≤ lowerLimit _ _ _
    exact lowerLimit_ge (le_trans (Nat.sub_le _ _) h.1) _
  · show cfg.desiredLimit ∣ lowerLimit _ _ _
    exact lowerLimit_dvd h.2 _

/-- Generic preservation through the GC-and-alloc ladder: if `P` is
preserved by the internal allocator (establishing `Q`) and by the GC
callback, then `P` holds after the ladder, and `Q` holds whenever the
request size was non-zero (every exit of a non-zero request goes through an
internal allocation attempt). -/
theorem gc_and_alloc_preserve {cfg : HeapCfg}
    {cb : Severity → HeapState → HeapState} {req : Nat} {retN : Bool}
    {st : HeapState} (P Q : HeapState → Prop)
    (halloc : ∀ size s, P s → P (jmem_heap_alloc_block_internal cfg size s).1 ∧
        Q (jmem_heap_alloc_block_internal cfg size s).1)
    (hcb : ∀ sev s, P s → P (cb sev s)) (h : P st) :
    P (jmem_heap_gc_and_alloc_block cfg cb req retN st).1 ∧
    (req ≠ 0 → Q (jmem_heap_gc_and_alloc_block cfg cb req retN st).1) := by
  rw [jmem_heap_gc_and_alloc_block]
  by_cases h0 : req = 0
  · rw [if_pos h0]
    exact ⟨h, fun hc => absurd h0 hc⟩
  · rw [if_neg h0]
    have h1 : P (if st.heapLimit < st.blocksSize + alignUp req
        then cb .low st else st) := by
      split
      · exact hcb _ _ h
      · exact h
    have h2 := halloc (alignUp req)
      (if st.heapLimit < st.blocksSize + alignUp req then cb .low st else st) h1
    rcases ha1 : (jmem_heap_alloc_block_internal cfg (alignUp req)
        (if st.heapLimit < st.blocksSize + alignUp req then cb .low st
          else st)).2 with _ | p
    swap
    · simp only [ha1]; exact ⟨h2.1, fun _ => h2.2⟩
    · simp only [ha1]
      have h3 := hcb Severity.low _ h2.1
      have h4 := halloc (alignUp req) (cb .low _) h3
      rcases ha2 : (jmem_heap_alloc_block_internal cfg (alignUp req)
          (cb .low (jmem_heap_alloc_block_internal cfg (alignUp req)
            (if st.heapLimit < st.blocksSize + alignUp req then cb .low st
              else st)).1)).2 with _ | p
      swap
      · simp only [ha2]; exact ⟨h4.1, fun _ => h4.2⟩
      · simp only [ha2]
        have h5 := hcb Severity.high _ h4.1
        have h6 := halloc (alignUp req) (cb .high _) h5
        rcases ha3 : (jmem_heap_alloc_block_internal cfg (alignUp req)
            (cb .high (jmem_heap_alloc_block_internal cfg (alignUp req)
              (cb .low (jmem_heap_alloc_block_internal cfg (alignUp req)
                (if st.heapLimit < st.blocksSize + alignUp req then cb .low st
                  else st)).1)).1)).2 with _ | p <;> simp only [ha3] <;>
          exact ⟨h6.1, fun _ => h6.2⟩

/-- The fast path preserves the (amended) skip-pointer invariant: the skip
pointer is repointed at the new `first.next_offset`, which is the
`JMEM_HEAP_END_OF_LIST` sentinel exactly when the list became empty. -/
theorem alloc_fast_skipInvA {cfg : HeapCfg} {st : HeapState} {r : Region}
    {rest : List Region} (hc : st.freeChain = r :: rest) (h : skipInvA st) :
    skipInvA (jmem_heap_alloc_block_internal_fast cfg st r rest).1 := by
  rw [jmem_heap_alloc_block_internal_fast]
  by_cases hsk : st.skipP = some r.off
  · simp only [if_pos hsk]
    by_cases hsz : r.size = JMEM_ALIGNMENT
    · simp only [if_pos hsz]
      cases rest with
      | nil => exact Or.inr ⟨rfl, rfl⟩
      | cons r2 rest2 =>
        exact Or.inl (Or.inr ⟨r2, List.mem_cons_self .., rfl⟩)
    · simp only [if_neg hsz]
      exact Or.inl (Or.inr ⟨⟨r.off + JMEM_ALIGNMENT, r.size - JMEM_ALIGNMENT⟩,
        List.mem_cons_self .., rfl⟩)
  · simp only [if_neg hsk]
    rcases h with (h0 | ⟨x, hxm, hx⟩) | ⟨hnil, _⟩
    · exact Or.inl (Or.inl h0)
    · rw [hc] at hxm
      rcases List.mem_cons.1 hxm with rfl | hxm2
      · exact absurd hx hsk
      · refine Or.inl (Or.inr ⟨x, ?_, hx⟩)
        split
        · exact hxm2
        · exact List.mem_cons_of_mem _ hxm2
    · rw [hc] at hnil
      exact absurd hnil (by simp)

/-- The core allocation dispatch preserves the amended skip invariant. -/
theorem alloc_core_skipInvA {cfg : HeapCfg} {size : Nat} {st : HeapState}
    (h : skipInvA st) :
    skipInvA (jmem_heap_alloc_block_internal_core cfg size st).1 := by
  rw [jmem_heap_alloc_block_internal_core]
  rcases hc : st.freeChain with _ | ⟨r, rest⟩
  · rw [jmem_heap_alloc_block_internal_slow]
    rcases hr : (allocSlowGo (alignUp size) none st.freeChain).2 with _ | pr
    · simp only [hr]
      rcases h with (h0 | ⟨x, hxm, hx⟩) | ⟨hnil, hend⟩
      · exact Or.inl (Or.inl h0)
      · rw [hc] at hxm
        exact absurd hxm (List.not_mem_nil _)
      · refine Or.inr ⟨?_, hend⟩
        show (allocSlowGo (alignUp size) none st.freeChain).1 = []
        rw [allocSlowGo_fail hr, hc]
    · exfalso
      rw [hc] at hr
      simp [allocSlowGo] at hr
  · simp only []
    by_cases h8 : alignUp size = JMEM_ALIGNMENT
    · rw [if_pos h8]
      exact alloc_fast_skipInvA hc h
    · rw [if_neg h8]
      rw [jmem_heap_alloc_block_internal_slow]
      rcases hr : (allocSlowGo (alignUp size) none st.freeChain).2 with _ | pr
      · simp only [hr]
        have he := allocSlowGo_fail hr
        rcases h with (h0 | ⟨x, hxm, hx⟩) | ⟨hnil, hend⟩
        · exact Or.inl (Or.inl h0)
        · refine Or.inl (Or.inr ⟨x, ?_, hx⟩)
          show x ∈ (allocSlowGo (alignUp size) none st.freeChain).1
          rw [he]
          exact hxm
        · refine Or.inr ⟨?_, hend⟩
          show (allocSlowGo (alignUp size) none st.freeChain).1 = []
          rw [he, hnil]
      · simp only [hr]
        obtain ⟨p, q⟩ := pr
        rcases allocSlowGo_prev hr with h0 | ⟨r2, hm2, ho2⟩
        · rcases h0 with rfl
          exact Or.inl (Or.inl rfl)
        · exact Or.inl (Or.inr ⟨r2, hm2, ho2⟩)

/-- `jmem_heap_alloc_block_internal` preserves the amended skip invariant. -/
theorem alloc_internal_skipInvA {cfg : HeapCfg} {size : Nat} {st : HeapState}
    (h : skipInvA st) :
    skipInvA (jmem_heap_alloc_block_internal cfg size st).1 := by
  have hcore := @alloc_core_skipInvA cfg size _ h
  rw [jmem_heap_alloc_block_internal]
  rcases hres : (jmem_heap_alloc_block_internal_core cfg size st).2 with _ | p <;>
    simp only [hres] <;> exact hcore

/-- `jmem_heap_free_block_internal` restores the un-amended skip invariant,
hence also the amended one. -/
theorem free_internal_skipInvA (cfg : HeapCfg) (boff size : Nat)
    (st : HeapState) :
    skipInvA (jmem_heap_free_block_internal cfg boff size st) :=
  Or.inl (free_internal_skipInv cfg boff size st)

/-- On success the internal allocator accounts the statistics by
`jmem_heap_stat_alloc` applied to its `size` argument. -/
theorem alloc_internal_success_stats {cfg : HeapCfg} {size : Nat}
    {st : HeapState} {p : Nat}
    (h : (jmem_heap_alloc_block_internal cfg size st).2 = some p) :
    (jmem_heap_alloc_block_internal cfg size st).1.stats
      = jmem_heap_stat_alloc size st.stats := by
  have hfr := @alloc_core_frame cfg size st
  rw [jmem_heap_alloc_block_internal] at h ⊢
  rcases hres : (jmem_heap_alloc_block_internal_core cfg size st).2 with _ | q <;>
    simp only [hres] at h ⊢
  · exact absurd h (by simp)
  · rw [hfr.2]

/-- The statistics accounting of `jmem_heap_stat_alloc` for an already
aligned size: `allocated_bytes` grows by the size, `waste_bytes` does not
change, the allocation counter is incremented and the peaks are raised when
exceeded. -/
theorem jmem_heap_stat_alloc_aligned {size : Nat} (h : JMEM_ALIGNMENT ∣ size)
    (s : HeapStats) :
    jmem_heap_stat_alloc size s =
      { allocated_bytes := s.allocated_bytes + size,
        waste_bytes := s.waste_bytes,
        alloc_count := s.alloc_count + 1,
        free_count := s.free_count,
        peak_allocated_bytes :=
          if s.peak_allocated_bytes < s.allocated_bytes + size then
            s.allocated_bytes + size
          else s.peak_allocated_bytes,
        peak_waste_bytes :=
          if s.peak_waste_bytes < s.waste_bytes then s.waste_bytes
          else s.peak_waste_bytes } := by
  rw [jmem_heap_stat_alloc, alignUp_of_dvd h]
  simp only [Nat.sub_self, Nat.add_zero]
  split <;> split <;> rfl

/-- If the whole GC-and-alloc ladder hands out a pointer while the GC
callback has no effect on the state, the very first internal allocation
attempt succeeded and produced the final state. -/
theorem gc_success_first_attempt {cfg : HeapCfg}
    {cb : Severity → HeapState → HeapState} {req : Nat} {retN : Bool}
    {st : HeapState} {p : Nat}
    (hcb : ∀ sev s, cb sev s = s)
    (hreq : req ≠ 0)
    (hout : (jmem_heap_gc_and_alloc_block cfg cb req retN st).2.1
      = AllocOutcome.ptr p) :
    (jmem_heap_alloc_block_internal cfg (alignUp req) st).2 = some p ∧
    (jmem_heap_gc_and_alloc_block cfg cb req retN st).1
      = (jmem_heap_alloc_block_internal cfg (alignUp req) st).1 := by
  rw [jmem_heap_gc_and_alloc_block, if_neg hreq] at hout ⊢
  have hst1 : (if st.heapLimit < st.blocksSize + alignUp req then cb .low st
      else st) = st := by
    split
    · exact hcb _ _
    · rfl
  simp only [hst1] at hout ⊢
  rcases ha1 : (jmem_heap_alloc_block_internal cfg (alignUp req) st).2 with _ | q
  · exfalso
    simp only [ha1] at hout
    have hch1 : (jmem_heap_alloc_block_internal cfg (alignUp req) st).1.freeChain
        = st.freeChain := by
      rw [alloc_internal_fail_frame ha1]
    rw [hcb Severity.low] at hout
    have ha2 := (@alloc_internal_chain_determined cfg (alignUp req) _ _ hch1).1.trans ha1
    simp only [ha2] at hout
    have hch2 : (jmem_heap_alloc_block_internal cfg (alignUp req)
        (jmem_heap_alloc_block_internal cfg (alignUp req) st).1).1.freeChain
        = st.freeChain := by
      rw [alloc_internal_fail_frame ha2]
      exact hch1
    rw [hcb Severity.high] at hout
    have ha3 := (@alloc_internal_chain_determined cfg (alignUp req) _ _ hch2).1.trans ha1
    simp only [ha3] at hout
    split at hout <;> exact absurd hout (by simp)
  · simp only [ha1] at hout ⊢
    injection hout with hout'
    exact ⟨by rw [hout'], trivial⟩

/-- First-fit never matches when every region is smaller than the need. -/
theorem allocSlowGo_nofit {need : Nat} :
    ∀ {c : List Region} {po : Option Nat}, (∀ r ∈ c, r.size < need) →
      (allocSlowGo need po c).2 = none := by
  intro c
  induction c with
  | nil => intro po _; rfl
  | cons r rest ih =>
    intro po h
    rw [allocSlowGo]
    have h1 : ¬ need ≤ r.size := by
      have := h r (List.mem_cons_self ..)
      omega
    rw [if_neg h1]
    exact ih (fun q hq => h q (List.mem_cons_of_mem _ hq))

/-! ### Claim theorems -/

/-- Claim C1: coalescing on free.  Freeing any set of pairwise-disjoint
allocated blocks, in any order, whose spans together cover the contiguous
range `[lo, hi)` leaves the free list well formed (in particular with no
two adjacent free regions) with exactly one region spanning that range;
and each individual free merges with the predecessor exactly when the
predecessor's region end equals the freed offset and with the successor
exactly when the (merged) region end equals the successor's offset, as the
length accounting with the two merge indicators states. -/
theorem jmem_c1_coalescing :
    (∀ (cfg : HeapCfg) (st : HeapState) (bs : List Region) (lo hi : Nat),
      wfChain st.freeChain → skipInvP st →
      (∀ b ∈ bs, 0 < b.size ∧ JMEM_ALIGNMENT ∣ b.size) →
      bs.Pairwise RDisj →
      (∀ b ∈ bs, ∀ x, inRegion b x → ¬ coversR st.freeChain x) →
      (∀ x, lo ≤ x → x < hi → ∃ b ∈ bs, inRegion b x) →
      lo < hi →
      wfChain ((bs.foldl (fun s b => jmem_heap_free_block cfg b.off b.size s)
          st).freeChain) ∧
      ∃! r, r ∈ (bs.foldl (fun s b => jmem_heap_free_block cfg b.off b.size s)
          st).freeChain ∧ r.off ≤ lo ∧ hi ≤ r.off + r.size) ∧
    (∀ (cfg : HeapCfg) (boff sz : Nat) (st : HeapState),
      wfChain st.freeChain → skipInvP st → 0 < sz → JMEM_ALIGNMENT ∣ sz →
      (∀ r ∈ st.freeChain, RDisj ⟨boff, sz⟩ r) →
      wfChain (jmem_heap_free_block cfg boff sz st).freeChain ∧
      ((jmem_heap_free_block cfg boff sz st).freeChain.length
          + (if ∃ p ∈ st.freeChain, p.off + p.size = boff then 1 else 0)
          + (if ∃ n ∈ st.freeChain, boff + sz = n.off then 1 else 0)
        = st.freeChain.length + 1)) := by
  constructor
  · intro cfg st bs lo hi hw hs hprops hpair hdisj hspan hlh
    obtain ⟨f1, f2, f3⟩ := free_fold_invariant cfg bs st hw hs hprops
      (List.Pairwise.imp (fun h => h) hpair) hdisj
    refine ⟨f1, wf_unique_span f1.1 f1.2 hlh ?_⟩
    intro x h1 h2
    exact (f3 x).2 (Or.inr (hspan x h1 h2))
  · intro cfg boff sz st hw hs hsz hdvd hdisj
    have hdisj' : ∀ r ∈ st.freeChain,
        boff + sz ≤ r.off ∨ r.off + r.size ≤ boff := fun r hr => hdisj r hr
    obtain ⟨_, m2, _, m4⟩ := free_block_master cfg boff sz st hw hs hsz hdvd hdisj'
    exact ⟨m2, m4⟩

/-- Witness for C1 at a concrete heap: freeing the blocks at offsets 32 and
16 (in that order) into a free list holding `[0,16)` and `[48,256)` yields a
well-formed list with a unique region spanning `[16,48)` (in fact the single
region `[0,256)`). -/
theorem jmem_c1_coalescing_witness :
    wfChain ((([⟨32, 16⟩, ⟨16, 16⟩] : List Region).foldl
        (fun s b => jmem_heap_free_block cfgT b.off b.size s) stW1).freeChain) ∧
    ∃! r, r ∈ (([⟨32, 16⟩, ⟨16, 16⟩] : List Region).foldl
        (fun s b => jmem_heap_free_block cfgT b.off b.size s) stW1).freeChain ∧
      r.off ≤ 16 ∧ 48 ≤ r.off + r.size :=
  jmem_c1_coalescing.1 cfgT stW1 [⟨32, 16⟩, ⟨16, 16⟩] 16 48
    (by unfold wfChain; decide) (Or.inl rfl) (by decide) (by decide)
    (by
      intro b hb x hx hc
      obtain ⟨r, hr, hxr⟩ := hc
      fin_cases hb <;> fin_cases hr <;>
        simp only [inRegion] at hx hxr <;> omega)
    (by
      intro x h1 h2
      by_cases hx : x < 32
      · exact ⟨⟨16, 16⟩, by simp, by simp [inRegion]; omega⟩
      · exact ⟨⟨32, 16⟩, by simp, by simp [inRegion]; omega⟩)
    (by decide)

/-- Claim C2: in segmented mode, the sum over all segments of
`occupied_size` equals `jmem_heap_blocks_size` after every internal
allocation and every free, and the occupancy walk attributes to the touched
segments byte counts that sum to the aligned block size. -/
theorem jmem_c2_segsum (cfg : HeapCfg) (h8seg : JMEM_ALIGNMENT ∣ cfg.segSize)
    (hseg : 0 < cfg.segSize) :
    (∀ (size : Nat) (st : HeapState), st.segOccupied.length = cfg.segCount →
      chainInBounds cfg st.freeChain → (∀ r ∈ st.freeChain, 0 < r.size) →
      SegSumInv st → SegSumInv (jmem_heap_alloc_block_internal cfg size st).1) ∧
    (∀ (boff size : Nat) (st : HeapState),
      st.segOccupied.length = cfg.segCount → JMEM_ALIGNMENT ∣ boff →
      alignUp size ≤ st.blocksSize →
      boff + alignUp size ≤ cfg.segCount * cfg.segSize → SegSumInv st →
      SegSumInv (jmem_heap_free_block cfg boff size st)) ∧
    (∀ (off size : Nat), JMEM_ALIGNMENT ∣ off → JMEM_ALIGNMENT ∣ size →
      ((segOccupyList cfg.segSize off size).map (fun q => q.2)).sum = size) := by
  refine ⟨?_, ?_, ?_⟩
  · intro size st hlen hbnd hpos hsum
    exact (alloc_internal_segsum h8seg hseg hlen hbnd hpos hsum).1
  · intro boff size st hlen h8off hble hbnd2 hsum
    exact (free_internal_segsum h8seg hseg hlen h8off hble hbnd2 hsum).1
  · intro off size h1 h2
    exact (segOccupyList_sum h8seg hseg h1 h2).1

/-- Witness for C2: the occupancy-sum invariant holds after an 8-byte
allocation from the fresh 256-byte heap. -/
theorem jmem_c2_segsum_witness :
    SegSumInv (jmem_heap_alloc_block_internal cfgT 8 tInit).1 :=
  (jmem_c2_segsum cfgT (by decide) (by decide)).1 8 tInit (by decide)
    (by unfold chainInBounds; decide) (by decide)
    (by unfold SegSumInv; decide)

/-- Claim C3 (amended): after every public alloc and free, the skip pointer
is either the sentinel `&first`, a node currently present in the free list,
or — when an operation has emptied the free list via the fast path — the
decompressed `JMEM_HEAP_END_OF_LIST` sentinel; after a free it is always
`&first` or a present node. -/
theorem jmem_c3_skip_pointer (cfg : HeapCfg)
    (cb : Severity → HeapState → HeapState) (req : Nat) (retN : Bool)
    (st : HeapState)
    (hcb : ∀ sev s, skipInvA s → skipInvA (cb sev s)) (h : skipInvA st) :
    skipInvA (jmem_heap_gc_and_alloc_block cfg cb req retN st).1 ∧
    ∀ boff size, skipInvP (jmem_heap_free_block cfg boff size st) := by
  refine ⟨?_, fun boff size => free_internal_skipInv cfg boff size st⟩
  exact (gc_and_alloc_preserve skipInvA (fun _ => True)
    (fun size s hP => ⟨alloc_internal_skipInvA hP, trivial⟩) hcb h).1

/-- Witness for the amended C3 at the fresh heap with the no-op callback. -/
theorem jmem_c3_skip_pointer_witness :
    skipInvA (jmem_heap_gc_and_alloc_block cfgT cbId 8 false tInit).1 ∧
    ∀ boff size, skipInvP (jmem_heap_free_block cfgT boff size tInit) :=
  jmem_c3_skip_pointer cfgT cbId 8 false tInit (fun _ _ hs => hs)
    (Or.inl (Or.inl rfl))

/-- Counterexample to C3 as stated: a sequence of public allocations and
frees (three 8-byte allocations, two frees that point the skip pointer at
the node at offset 0, a 240-byte allocation, and a final 8-byte allocation
that empties the free list via the fast path) leaves the skip pointer at
the decompressed `END_OF_LIST` sentinel, which is neither `&first` nor a
node of the (empty) free list. -/
theorem jmem_c3_counterexample :
    tC3g.freeChain = [] ∧ tC3g.skipP = some JMEM_HEAP_END_OF_LIST ∧
    ¬ skipInvP tC3g ∧ skipInvA tC3g := by
  refine ⟨by decide, by decide, ?_, Or.inr ⟨by decide, by decide⟩⟩
  unfold skipInvP
  decide

/-- Claim C4: the allocation fast path is taken exactly when the aligned
request equals `JMEM_ALIGNMENT` and the free list is non-empty; it takes
the first free region, unlinking it when its size equals the granule and
otherwise shrinking it in place by advancing the header one granule with
the size reduced accordingly and the tail of the list unchanged, returning
the region's starting offset; in every other case the slow path runs on
the aligned size. -/
theorem jmem_c4_fast_path (cfg : HeapCfg) (size : Nat) (st : HeapState) :
    ((jmem_heap_alloc_block_internal cfg size st).1.freeChain,
      (jmem_heap_alloc_block_internal cfg size st).2)
      = if h : alignUp size = JMEM_ALIGNMENT ∧ st.freeChain ≠ [] then
          ((if (st.freeChain.head h.2).size = JMEM_ALIGNMENT then
              st.freeChain.tail
            else ⟨(st.freeChain.head h.2).off + JMEM_ALIGNMENT,
                (st.freeChain.head h.2).size - JMEM_ALIGNMENT⟩ ::
              st.freeChain.tail),
            some (st.freeChain.head h.2).off)
        else ((jmem_heap_alloc_block_internal_slow cfg (alignUp size) st).1.freeChain,
              (jmem_heap_alloc_block_internal_slow cfg (alignUp size) st).2) := by
  have hfc : (jmem_heap_alloc_block_internal cfg size st).1.freeChain
        = (jmem_heap_alloc_block_internal_core cfg size st).1.freeChain ∧
      (jmem_heap_alloc_block_internal cfg size st).2
        = (jmem_heap_alloc_block_internal_core cfg size st).2 := by
    rw [jmem_heap_alloc_block_internal]
    rcases hres : (jmem_heap_alloc_block_internal_core cfg size st).2 with _ | p <;>
      simp only [hres] <;> constructor <;> first | rfl | trivial
  rw [hfc.1, hfc.2, jmem_heap_alloc_block_internal_core]
  rcases hc : st.freeChain with _ | ⟨r, rest⟩
  · simp only []
    rw [dif_neg (by simp)]
  · simp only []
    by_cases h8 : alignUp size = JMEM_ALIGNMENT
    · rw [if_pos h8, dif_pos ⟨h8, by simp⟩]
      simp only [List.head_cons, List.tail_cons]
      rfl
    · rw [if_neg h8, dif_neg (by simp [h8])]

/-- Claim C5 (amended): after every public alloc and every free,
`jmem_heap_limit` is at least `jmem_heap_blocks_size` and is a multiple of
the desired-limit step; the multiple can be zero (the limit can be lowered
all the way to 0 when `blocks_size` reaches 0), so positivity does not
hold. -/
theorem jmem_c5_limit (cfg : HeapCfg) (cb : Severity → HeapState → HeapState)
    (req : Nat) (retN : Bool) (st : HeapState)
    (hd : 0 < cfg.desiredLimit)
    (hcb : ∀ sev s, LimitInv cfg.desiredLimit s →
      LimitInv cfg.desiredLimit (cb sev s))
    (h : LimitInv cfg.desiredLimit st) :
    LimitInv cfg.desiredLimit (jmem_heap_gc_and_alloc_block cfg cb req retN st).1 ∧
    ∀ boff size, LimitInv cfg.desiredLimit (jmem_heap_free_block cfg boff size st) := by
  refine ⟨?_, fun boff size => free_internal_limitInv hd h⟩
  exact (gc_and_alloc_preserve (LimitInv cfg.desiredLimit) (fun _ => True)
    (fun size s hP => ⟨(alloc_internal_limitInv hd hP.2).1, trivial⟩) hcb h).1

/-- Witness for the amended C5 at the fresh heap with the no-op callback. -/
theorem jmem_c5_limit_witness :
    LimitInv cfgT.desiredLimit (jmem_heap_gc_and_alloc_block cfgT cbId 8 false tInit).1 ∧
    ∀ boff size, LimitInv cfgT.desiredLimit (jmem_heap_free_block cfgT boff size tInit) :=
  jmem_c5_limit cfgT cbId 8 false tInit (by decide) (fun _ _ hl => hl)
    (by unfold LimitInv; decide)

/-- Counterexample to C5 as stated: freeing the only allocated block of the
fresh heap lowers the heap limit to 0, which is not a positive multiple of
the desired-limit step. -/
theorem jmem_c5_counterexample :
    (jmem_heap_free_block cfgT 0 8 tC3a).heapLimit = 0 ∧
    0 < cfgT.desiredLimit := ⟨by decide, by decide⟩

/-- Claim C6 (amended): when the GC callback frees nothing at `LOW`
severity, the first allocation attempt fails, and the retry after the
`HIGH`-severity callback succeeds, the call returns that pointer and the
callback is invoked `LOW` then `HIGH` once each through the escalation
ladder — preceded by one extra `LOW` invocation from the budget check
whenever `blocks_size` plus the aligned size exceeds `heap_limit` on
entry. -/
theorem jmem_c6_gc_escalation (cfg : HeapCfg)
    (cb : Severity → HeapState → HeapState) (req : Nat) (retN : Bool)
    (st : HeapState) (p : Nat)
    (hcbL : ∀ s, cb Severity.low s = s)
    (hreq : req ≠ 0)
    (hfail1 : (jmem_heap_alloc_block_internal cfg (alignUp req) st).2 = none)
    (hsucc : (jmem_heap_alloc_block_internal cfg (alignUp req)
        (cb Severity.high
          (jmem_heap_alloc_block_internal cfg (alignUp req)
            (jmem_heap_alloc_block_internal cfg (alignUp req) st).1).1)).2
      = some p) :
    (jmem_heap_gc_and_alloc_block cfg cb req retN st).2
      = (AllocOutcome.ptr p,
         (if st.heapLimit < st.blocksSize + alignUp req then [Severity.low]
          else ([] : List Severity)) ++ [Severity.low, Severity.high]) := by
  rw [jmem_heap_gc_and_alloc_block, if_neg hreq]
  have hch1 : (jmem_heap_alloc_block_internal cfg (alignUp req) st).1.freeChain
      = st.freeChain := by
    rw [alloc_internal_fail_frame hfail1]
  have hfail2 := (@alloc_internal_chain_determined cfg (alignUp req) _ _ hch1).1.trans hfail1
  simp only [hcbL, ite_self, hfail1, hfail2, hsucc]

/-- Witness for the amended C6: from an exhausted 8-byte-short heap, the
callback that frees nothing at `LOW` and frees an 8-byte block at `HIGH`
makes the allocation succeed with the log `LOW`, `HIGH`. -/
theorem jmem_c6_gc_escalation_witness :
    (jmem_heap_gc_and_alloc_block cfgT cbW6 8 false stW6).2
      = (AllocOutcome.ptr 0, [Severity.low, Severity.high]) := by
  have h := jmem_c6_gc_escalation cfgT cbW6 8 false stW6 0 (fun s => rfl)
    (by decide) (by decide) (by decide)
  rw [h]
  decide

/-- Counterexample to C6 as stated: with a callback that frees nothing at
`LOW` and frees exactly the requested bytes at `HIGH`, an allocation from a
state whose `blocks_size` sits at `heap_limit` returns a valid pointer but
invokes the callback at `LOW` twice (once from the pre-emptive budget
check, once from the escalation ladder) before the `HIGH` invocation. -/
theorem jmem_c6_counterexample :
    (jmem_heap_alloc_block cfg6 cbC6 8 stC6).2
      = (AllocOutcome.ptr 0,
         [Severity.low, Severity.low, Severity.high]) := by decide

/-- Claim C7 (amended): for every successful allocation through the public
entry points with a state-preserving GC callback, the statistics are
updated with the pre-aligned size the internal allocator receives:
`allocated_bytes` grows by `align_up(requested)`, `waste_bytes` does not
change (the waste increment is always 0, not `aligned − requested`),
`alloc_count` is incremented, and the peaks are raised when exceeded. -/
theorem jmem_c7_stats (cfg : HeapCfg)
    (cb : Severity → HeapState → HeapState) (req : Nat) (retN : Bool)
    (st : HeapState) (p : Nat)
    (hcb : ∀ sev s, cb sev s = s)
    (hout : (jmem_heap_gc_and_alloc_block cfg cb req retN st).2.1
      = AllocOutcome.ptr p) :
    (jmem_heap_gc_and_alloc_block cfg cb req retN st).1.stats
      = { allocated_bytes := st.stats.allocated_bytes + alignUp req,
          waste_bytes := st.stats.waste_bytes,
          alloc_count := st.stats.alloc_count + 1,
          free_count := st.stats.free_count,
          peak_allocated_bytes :=
            if st.stats.peak_allocated_bytes
                < st.stats.allocated_bytes + alignUp req then
              st.stats.allocated_bytes + alignUp req
            else st.stats.peak_allocated_bytes,
          peak_waste_bytes :=
            if st.stats.peak_waste_bytes < st.stats.waste_bytes then
              st.stats.waste_bytes
            else st.stats.peak_waste_bytes } := by
  by_cases h0 : req = 0
  · rw [jmem_heap_gc_and_alloc_block, if_pos h0] at hout
    exact absurd hout (by simp)
  · obtain ⟨hs1, hs2⟩ := gc_success_first_attempt hcb h0 hout
    rw [hs2, alloc_internal_success_stats hs1,
      jmem_heap_stat_alloc_aligned (alignUp_dvd req)]

/-- Witness for the amended C7: a successful 5-byte request from the fresh
heap accounts 8 allocated bytes and no waste. -/
theorem jmem_c7_stats_witness :
    (jmem_heap_gc_and_alloc_block cfgT cbId 5 false tInit).1.stats
      = { allocated_bytes := 8, waste_bytes := 0, alloc_count := 1,
          free_count := 0, peak_allocated_bytes := 8,
          peak_waste_bytes := 0 } := by
  have h := jmem_c7_stats cfgT cbId 5 false tInit 0 (fun _ _ => rfl) (by decide)
  rw [h]
  decide

/-- Counterexample to C7 as stated: a successful 5-byte request increments
`waste_bytes` by 0, not by `align_up(5) − 5 = 3`, because the internal
allocator passes the already aligned size to the statistics hook. -/
theorem jmem_c7_counterexample :
    (jmem_heap_alloc_block cfgT cbId 5 tInit).2.1 = AllocOutcome.ptr 0 ∧
    (jmem_heap_alloc_block cfgT cbId 5 tInit).1.stats.waste_bytes = 0 ∧
    alignUp 5 - 5 = 3 := by decide

/-- Claim C8: error contract of the GC-and-alloc loop.  A request of 0
bytes returns null at once without invoking the callback; a null return
happens only for a zero request or the null-on-error variant; a fatal
`OUT_OF_MEMORY` termination happens only for the default variant on a
non-zero request; and when no attempt of the ladder produces a pointer the
outcome is exactly null or fatal according to the variant. -/
theorem jmem_c8_error_contract (cfg : HeapCfg)
    (cb : Severity → HeapState → HeapState) (req : Nat) (retN : Bool)
    (st : HeapState) :
    (req = 0 → jmem_heap_gc_and_alloc_block cfg cb req retN st
      = (st, AllocOutcome.null, [])) ∧
    ((jmem_heap_gc_and_alloc_block cfg cb req retN st).2.1 = AllocOutcome.null →
      req = 0 ∨ retN = true) ∧
    ((jmem_heap_gc_and_alloc_block cfg cb req retN st).2.1 = AllocOutcome.fatal →
      retN = false ∧ req ≠ 0) ∧
    (req ≠ 0 →
      (∀ q, (jmem_heap_gc_and_alloc_block cfg cb req retN st).2.1
        ≠ AllocOutcome.ptr q) →
      (jmem_heap_gc_and_alloc_block cfg cb req retN st).2.1
        = (if retN then AllocOutcome.null else AllocOutcome.fatal)) := by
  by_cases h0 : req = 0
  · rw [jmem_heap_gc_and_alloc_block, if_pos h0]
    exact ⟨fun _ => rfl, fun _ => Or.inl h0, fun hf => absurd hf (by simp),
      fun hne _ => absurd h0 hne⟩
  · rw [jmem_heap_gc_and_alloc_block, if_neg h0]
    rcases ha1 : (jmem_heap_alloc_block_internal cfg (alignUp req)
        (if st.heapLimit < st.blocksSize + alignUp req then cb Severity.low st
          else st)).2 with _ | p
    swap
    · simp only [ha1]
      exact ⟨fun h => absurd h h0, fun h => absurd h (by simp),
        fun h => absurd h (by simp), fun _ hnp => absurd rfl (hnp p)⟩
    · simp only [ha1]
      rcases ha2 : (jmem_heap_alloc_block_internal cfg (alignUp req)
          (cb Severity.low (jmem_heap_alloc_block_internal cfg (alignUp req)
            (if st.heapLimit < st.blocksSize + alignUp req then
              cb Severity.low st else st)).1)).2 with _ | p
      swap
      · simp only [ha2]
        exact ⟨fun h => absurd h h0, fun h => absurd h (by simp),
          fun h => absurd h (by simp), fun _ hnp => absurd rfl (hnp p)⟩
      · simp only [ha2]
        rcases ha3 : (jmem_heap_alloc_block_internal cfg (alignUp req)
            (cb Severity.high (jmem_heap_alloc_block_internal cfg (alignUp req)
              (cb Severity.low (jmem_heap_alloc_block_internal cfg (alignUp req)
                (if st.heapLimit < st.blocksSize + alignUp req then
                  cb Severity.low st else st)).1)).1)).2 with _ | p
        swap
        · simp only [ha3]
          exact ⟨fun h => absurd h h0, fun h => absurd h (by simp),
            fun h => absurd h (by simp), fun _ hnp => absurd rfl (hnp p)⟩
        · simp only [ha3]
          cases retN
          · exact ⟨fun h => absurd h h0, fun h => absurd h (by simp),
              fun _ => ⟨rfl, h0⟩, fun _ _ => by simp⟩
          · exact ⟨fun h => absurd h h0, fun _ => Or.inr rfl,
              fun h => absurd h (by simp), fun _ _ => by simp⟩

/-- Witness for C8: the zero-request equation at the fresh heap, and the
fatal outcome of an unsatisfiable 512-byte request from the 256-byte heap
with the no-op callback under the default (terminating) variant. -/
theorem jmem_c8_error_contract_witness :
    jmem_heap_gc_and_alloc_block cfgT cbId 0 false tInit
      = (tInit, AllocOutcome.null, []) ∧
    (jmem_heap_gc_and_alloc_block cfgT cbId 512 false tInit).2.1
      = (if false then AllocOutcome.null else AllocOutcome.fatal) :=
  ⟨(jmem_c8_error_contract cfgT cbId 0 false tInit).1 rfl,
   (jmem_c8_error_contract cfgT cbId 512 false tInit).2.2.2 (by decide)
     (fun q hq => by
       rw [show (jmem_heap_gc_and_alloc_block cfgT cbId 512 false tInit).2.1
           = AllocOutcome.fatal from by decide] at hq
       exact AllocOutcome.noConfusion hq)⟩

/-- Claim C9 (amended): a zero-size free is not a no-op.  It leaves
`blocks_size`, the per-segment occupancy, and (whenever the limit sits
within one step of `blocks_size`, as the lowering loop guarantees after
every operation) `heap_limit` unchanged, but it decrements
`allocated_blocks_count`, increments the free counter, and splices a
zero-size region into the free list. -/
theorem jmem_c9_zero_free (cfg : HeapCfg) (boff : Nat) (st : HeapState)
    (hlim : st.heapLimit < st.blocksSize + cfg.desiredLimit) :
    (jmem_heap_free_block cfg boff 0 st).blocksSize = st.blocksSize ∧
    (jmem_heap_free_block cfg boff 0 st).segOccupied = st.segOccupied ∧
    (jmem_heap_free_block cfg boff 0 st).heapLimit = st.heapLimit ∧
    (jmem_heap_free_block cfg boff 0 st).allocatedBlocksCount
      = st.allocatedBlocksCount - 1 ∧
    (jmem_heap_free_block cfg boff 0 st).stats.free_count
      = st.stats.free_count + 1 := by
  rw [jmem_heap_free_block, jmem_heap_free_block_internal]
  refine ⟨?_, ?_, ?_, rfl, rfl⟩
  · show st.blocksSize - alignUp 0 = st.blocksSize
    rw [alignUp_zero, Nat.sub_zero]
  · rfl
  · show lowerLimit cfg.desiredLimit (st.blocksSize - alignUp 0) st.heapLimit
      = st.heapLimit
    rw [alignUp_zero, Nat.sub_zero, lowerLimit, if_neg (by omega)]

/-- Witness for the amended C9 at the state with one live block. -/
theorem jmem_c9_zero_free_witness :
    (jmem_heap_free_block cfgT 0 0 stC9).blocksSize = stC9.blocksSize ∧
    (jmem_heap_free_block cfgT 0 0 stC9).segOccupied = stC9.segOccupied ∧
    (jmem_heap_free_block cfgT 0 0 stC9).heapLimit = stC9.heapLimit ∧
    (jmem_heap_free_block cfgT 0 0 stC9).allocatedBlocksCount
      = stC9.allocatedBlocksCount - 1 ∧
    (jmem_heap_free_block cfgT 0 0 stC9).stats.free_count
      = stC9.stats.free_count + 1 :=
  jmem_c9_zero_free cfgT 0 stC9 (by decide)

/-- Counterexample to C9 as stated: a zero-size free at offset 0 of a heap
with one live block splices a zero-size region into the free list and
decrements `allocated_blocks_count`, so it is not a no-op. -/
theorem jmem_c9_counterexample :
    (jmem_heap_free_block cfgT 0 0 stC9).freeChain = [⟨0, 0⟩, ⟨16, 240⟩] ∧
    (jmem_heap_free_block cfgT 0 0 stC9).allocatedBlocksCount = 1 ∧
    stC9.freeChain = [⟨16, 240⟩] ∧
    stC9.allocatedBlocksCount = 2 := by decide

/-- Claim C10: atomicity of failed allocation.  When every free region is
smaller than the aligned request (for an aligned well-formed chain), the
internal allocation returns null and leaves the free list, the skip
pointer, `blocks_size`, `allocated_blocks_count`, the per-segment
occupancy, and the statistics exactly as before the call. -/
theorem jmem_c10_failed_alloc_frame (cfg : HeapCfg) (size : Nat)
    (st : HeapState)
    (hpos : ∀ r ∈ st.freeChain, 0 < r.size)
    (hdvd : ∀ r ∈ st.freeChain, JMEM_ALIGNMENT ∣ r.size)
    (hno : ∀ r ∈ st.freeChain, r.size < alignUp size) :
    (jmem_heap_alloc_block_internal cfg size st).2 = none ∧
    (jmem_heap_alloc_block_internal cfg size st).1.freeChain = st.freeChain ∧
    (jmem_heap_alloc_block_internal cfg size st).1.skipP = st.skipP ∧
    (jmem_heap_alloc_block_internal cfg size st).1.blocksSize = st.blocksSize ∧
    (jmem_heap_alloc_block_internal cfg size st).1.allocatedBlocksCount
      = st.allocatedBlocksCount ∧
    (jmem_heap_alloc_block_internal cfg size st).1.segOccupied
      = st.segOccupied ∧
    (jmem_heap_alloc_block_internal cfg size st).1.stats = st.stats := by
  have hslow : (jmem_heap_alloc_block_internal_slow cfg (alignUp size) st).2
      = none := by
    rw [jmem_heap_alloc_block_internal_slow]
    have hgo := @allocSlowGo_nofit (alignUp size) st.freeChain none hno
    rcases hres : (allocSlowGo (alignUp size) none st.freeChain).2 with _ | pr
    · simp only [hres]
    · exact absurd (hgo.symm.trans hres) (by simp)
  have hcz : (jmem_heap_alloc_block_internal_core cfg size st).2 = none := by
    rw [jmem_heap_alloc_block_internal_core]
    rcases hc : st.freeChain with _ | ⟨r, rest⟩
    · exact hslow
    · simp only []
      by_cases h8 : alignUp size = JMEM_ALIGNMENT
      · exfalso
        have hm : r ∈ st.freeChain := hc ▸ List.mem_cons_self ..
        have h1 := hpos r hm
        have h2 := Nat.le_of_dvd h1 (hdvd r hm)
        have h3 := hno r hm
        rw [h8] at h3
        simp only [JMEM_ALIGNMENT] at h2 h3
        omega
      · rw [if_neg h8]
        exact hslow
  have hz : (jmem_heap_alloc_block_internal cfg size st).2 = none := by
    rw [jmem_heap_alloc_block_internal]
    rcases hres : (jmem_heap_alloc_block_internal_core cfg size st).2 with _ | p
    · simp only [hres]
    · exact absurd (hcz.symm.trans hres) (by simp)
  have hfr := alloc_internal_fail_frame hz
  rw [hfr]
  exact ⟨hz, rfl, rfl, rfl, rfl, rfl, rfl⟩

/-- Witness for C10: a 512-byte request from the fresh 256-byte heap fails
and leaves every listed component of the state unchanged. -/
theorem jmem_c10_failed_alloc_frame_witness :
    (jmem_heap_alloc_block_internal cfgT 512 tInit).2 = none ∧
    (jmem_heap_alloc_block_internal cfgT 512 tInit).1.freeChain
      = tInit.freeChain ∧
    (jmem_heap_alloc_block_internal cfgT 512 tInit).1.skipP = tInit.skipP ∧
    (jmem_heap_alloc_block_internal cfgT 512 tInit).1.blocksSize
      = tInit.blocksSize ∧
    (jmem_heap_alloc_block_internal cfgT 512 tInit).1.allocatedBlocksCount
      = tInit.allocatedBlocksCount ∧
    (jmem_heap_alloc_block_internal cfgT 512 tInit).1.segOccupied
      = tInit.segOccupied ∧
    (jmem_heap_alloc_block_internal cfgT 512 tInit).1.stats = tInit.stats :=
  jmem_c10_failed_alloc_frame cfgT 512 tInit (by decide) (by decide) (by decide)

end JmemHeap
